import Mathlib

/-!
Cache simulator: the cache model (`Cache.C`, `Cache.h`) and the trace-driven
access engine (`Simulate.C`, `Simulate.h`), as a shallow embedding.

Conventions of the embedding:

* `uint64_t` values are natural numbers below `2^64`; a left shift is reduced
  modulo `2^64`.
* `int64_t` tags and set numbers are integers; the conversions that narrow a
  value (`uint64_t → int64_t` at the `return` of `getTag`, `int64_t → int32_t`
  at `placeHolder` in `updateLRUHit`) are the two's complement wrap-arounds
  `toInt64` and `toInt32`.
* The hit, miss and eviction counters are `int32_t` in `Simulate.h`. `loadData`
  counts them in the integers, where `++` adds one; `loadData32` is the same
  function with the `int32_t` range, where `++` on `2^31 - 1` has no value. The
  two agree while the counters are below `2^31 - 1`, which covers every run of
  fewer than `2^31` accesses.
* A C++ call that does not deliver a value to its caller yields a `Fault`:
  a failed `assert`, an index outside the allocated storage, the end of a
  non-void function reached without `return`, or an exception nobody catches.
* Text written to standard output is not part of the state.

The file has two parts: the embedding and the predicates used to state the
properties, then the lemmas and theorems.
-/

namespace CacheSim

/-- Ways in which a call fails to deliver a value to its caller. -/
inductive Fault
  /-- The `assert` of `getBits` failed and the program was aborted. -/
  | assertion
  /-- An index outside the storage allocated for `lines` or for a string. -/
  | outOfBounds
  /-- Control reached the closing brace of a non-void function. -/
  | noReturnValue
  /-- The shift count of `1 << setIndexBits` is outside `0..31`. -/
  | shiftCount
  /-- An array length below zero was passed to `new[]`. -/
  | badArrayLength
  /-- The conversion `std::stoul` found no digit (`std::invalid_argument`). -/
  | invalidArgument
  /-- The conversion `std::stoul` overflowed (`std::out_of_range`). -/
  | outOfRange
  /-- The operator `++` was applied to an `int32_t` counter holding `2^31 - 1`. -/
  | counterOverflow
deriving DecidableEq, Repr

deriving instance DecidableEq for Except

/-- Two's complement value of an integer narrowed to `int32_t`. -/
def toInt32 (x : Int) : Int := (x + 2 ^ 31) % 2 ^ 32 - 2 ^ 31

/-- Two's complement value of an integer narrowed to `int64_t`. -/
def toInt64 (x : Int) : Int := (x + 2 ^ 63) % 2 ^ 64 - 2 ^ 63

/-- Class `Cache::Line` of `Cache.h`: an `int64_t` tag and a valid bit. -/
structure Line where
  tag : Int
  valid : Bool
deriving DecidableEq, Repr

/-- Constructor `Cache::Line::Line`: tag `0`, not valid. -/
def Line.new : Line := { tag := 0, valid := false }

/-- Class `Cache` of `Cache.h`: `lines` is the array of `numSets` rows, each
allocated with `associativity` lines; the other fields are the `int32_t`
members. -/
structure Cache where
  lines : List (List Line)
  numSets : Int
  associativity : Int
  blockOffsetBits : Int
  setIndexBits : Int
  verbose : Bool
deriving DecidableEq, Repr

/-- Constructor `Cache::Cache`. `numSets = 1 << setIndexBits` is an `int`
shift: a count outside `0..31` has no value, and the count `31` gives the
negative `INT_MIN`, which `new Line*[numSets]` rejects; `new Line[associativity]`
rejects a negative `associativity`. -/
def Cache.new (associativity blockOffsetBits setIndexBits : Int) (verbose : Bool) :
    Except Fault Cache :=
  if setIndexBits < 0 ∨ 32 ≤ setIndexBits then .error .shiftCount
  else
    let numSets := toInt32 (2 ^ setIndexBits.toNat)
    if numSets < 0 then .error .badArrayLength
    else if associativity < 0 then .error .badArrayLength
    else .ok
      { lines := List.replicate numSets.toNat (List.replicate associativity.toNat Line.new)
        numSets := numSets
        associativity := associativity
        blockOffsetBits := blockOffsetBits
        setIndexBits := setIndexBits
        verbose := verbose }

/-- The condition asserted at the head of `Cache::getBits`. -/
def rangeOk (low high : Int) : Prop := low ≥ 0 ∧ high ≥ 0 ∧ low ≤ high ∧ high ≤ 63

instance (low high : Int) : Decidable (rangeOk low high) := by
  unfold rangeOk; infer_instance

/-- Function `Cache::getBits`: after the assertion, shift left by `63 - high`
(in 64 bits), shift right by `63 - high`, shift right by `low`. -/
def getBits (source : Nat) (low high : Int) : Except Fault Nat :=
  if rangeOk low high then
    let source1 := (source <<< (63 - high).toNat) % 2 ^ 64
    let source2 := source1 >>> (63 - high).toNat
    let source3 := source2 >>> low.toNat
    .ok source3
  else .error .assertion

/-- The bit range that `Cache::getTag` passes to `getBits`. -/
def Cache.tagRange (c : Cache) : Int × Int := (c.setIndexBits + c.blockOffsetBits, 63)

/-- The bit range that `Cache::getSet` passes to `getBits`. -/
def Cache.setRange (c : Cache) : Int × Int :=
  (c.blockOffsetBits, (c.setIndexBits + c.blockOffsetBits) - 1)

/-- Function `Cache::getTag`: `return getBits(source, setIndexBits + blockOffsetBits, 63)`,
converted to the `int64_t` return type. -/
def Cache.getTag (c : Cache) (source : Nat) : Except Fault Int := do
  let bits ← getBits source c.tagRange.1 c.tagRange.2
  pure (toInt64 bits)

/-- Function `Cache::getSet`: the bits are computed into the local `set` and
the body ends there, without a `return` statement. -/
def Cache.getSet (c : Cache) (source : Nat) : Except Fault Int := do
  let _set ← getBits source c.setRange.1 c.setRange.2
  .error .noReturnValue

/-- Read of `lines[set][i]`. -/
def Cache.line (c : Cache) (set i : Int) : Except Fault Line :=
  if set < 0 ∨ i < 0 then .error .outOfBounds
  else
    match c.lines[set.toNat]? with
    | none => .error .outOfBounds
    | some row =>
      match row[i.toNat]? with
      | none => .error .outOfBounds
      | some l => .ok l

/-- Assignment `lines[set][i] = l`. -/
def Cache.setLine (c : Cache) (set i : Int) (l : Line) : Except Fault Cache :=
  if set < 0 ∨ i < 0 then .error .outOfBounds
  else
    match c.lines[set.toNat]? with
    | none => .error .outOfBounds
    | some row =>
      if i.toNat < row.length then
        .ok { c with lines := c.lines.set set.toNat (row.set i.toNat l) }
      else .error .outOfBounds

/-- Loop of `Cache::presentInCache` over the slots still to visit. -/
def Cache.presentFrom (c : Cache) (set tag : Int) : List Nat → Except Fault Bool
  | [] => .ok false
  | i :: rest => do
    let l ← c.line set i
    if l.tag = tag ∧ l.valid = true then .ok true
    else c.presentFrom set tag rest

/-- Function `Cache::presentInCache`: `i` runs over `0 .. associativity - 1`. -/
def Cache.presentInCache (c : Cache) (set tag : Int) : Except Fault Bool :=
  c.presentFrom set tag (List.range c.associativity.toNat)

/-- Function `Cache::isFull`: `lines[set][associativity - 1].valid`. -/
def Cache.isFull (c : Cache) (set : Int) : Except Fault Bool := do
  let l ← c.line set (c.associativity - 1)
  pure l.valid

/-- The loop `for (j = start; j > 0; j--) lines[set][j] = lines[set][j-1];`
shared by `updateLRU` and `updateLRUHit`; the argument is the current `j`. -/
def Cache.shiftFrom (c : Cache) (set : Int) : Nat → Except Fault Cache
  | 0 => .ok c
  | j + 1 => do
    let l ← c.line set j
    let c1 ← c.setLine set (j + 1 : Nat) l
    c1.shiftFrom set j

/-- Function `Cache::updateLRU`: the shift loop started at `associativity - 1`. -/
def Cache.updateLRU (c : Cache) (set : Int) : Except Fault Cache :=
  c.shiftFrom set (c.associativity - 1).toNat

/-- Function `Cache::updateCache`: `updateLRU(set)`, then slot 0 receives the
tag and becomes valid. -/
def Cache.updateCache (c : Cache) (set tag : Int) : Except Fault Cache := do
  let c1 ← c.updateLRU set
  let l0 ← c1.line set 0
  let c2 ← c1.setLine set 0 { l0 with tag := tag }
  let l0 ← c2.line set 0
  c2.setLine set 0 { l0 with valid := true }

/-- Search loop of `Cache::updateLRUHit`: the value of `index` when the loop
ends, `-1` when no slot carries the tag. The loop compares tags only. -/
def Cache.findTag (c : Cache) (set tag : Int) : List Nat → Except Fault Int
  | [] => .ok (-1)
  | i :: rest => do
    let l ← c.line set i
    if l.tag = tag then .ok i
    else c.findTag set tag rest

/-- Function `Cache::updateLRUHit`. When slot 0 does not carry the tag: find
`index`, keep `lines[set][index].tag` in the `int32_t` variable `placeHolder`,
shift slots `0 .. index-1` back by one, store `placeHolder` as tag of slot 0. -/
def Cache.updateLRUHit (c : Cache) (set tag : Int) : Except Fault Cache := do
  let l0 ← c.line set 0
  if l0.tag ≠ tag then
    let index ← c.findTag set tag (List.range c.associativity.toNat)
    let lk ← c.line set index
    let placeHolder := toInt32 lk.tag
    let c1 ← c.shiftFrom set index.toNat
    let l0 ← c1.line set 0
    c1.setLine set 0 { l0 with tag := placeHolder }
  else .ok c

/-- Class `Simulate` of `Simulate.h`. -/
structure Simulate where
  cacheP : Cache
  hits : Int
  misses : Int
  evictions : Int
  verbose : Bool
deriving DecidableEq, Repr

/-- Constructor `Simulate::Simulate`: counters at zero and a new cache. -/
def Simulate.new (associativity blockOffsetBits setIndexBits : Int) (verbose : Bool) :
    Except Fault Simulate := do
  let c ← Cache.new associativity blockOffsetBits setIndexBits verbose
  pure { cacheP := c, hits := 0, misses := 0, evictions := 0, verbose := verbose }

/-- Function `Simulate::loadData`: a hit counts and promotes the tag; a miss
counts, counts an eviction when the set is full, and inserts the tag. The
counters are counted in the integers; `loadData32` adds their `int32_t` range. -/
def Simulate.loadData (s : Simulate) (tag set : Int) : Except Fault Simulate := do
  if (← s.cacheP.presentInCache set tag) then
    let s1 := { s with hits := s.hits + 1 }
    let c ← s1.cacheP.updateLRUHit set tag
    pure { s1 with cacheP := c }
  else
    let s1 := { s with misses := s.misses + 1 }
    let full ← s1.cacheP.isFull set
    let s2 := if full then { s1 with evictions := s1.evictions + 1 } else s1
    let c ← s2.cacheP.updateCache set tag
    pure { s2 with cacheP := c }

/-- A sequence of `loadData` calls, each given as `(tag, set)`. -/
def Simulate.loadAll (s : Simulate) : List (Int × Int) → Except Fault Simulate
  | [] => .ok s
  | (tag, set) :: rest => do
    let s1 ← s.loadData tag set
    s1.loadAll rest

/-- A `Modify` record: `loadData(tag, set); loadData(tag, set);`. -/
def Simulate.modify (s : Simulate) (tag set : Int) : Except Fault Simulate := do
  let s1 ← s.loadData tag set
  s1.loadData tag set

/-- Read of `line[i]` on a `std::string`: a character of the string, the
terminating NUL at `i = size()`, nothing beyond. -/
def strAt (line : List Char) (i : Nat) : Except Fault Char :=
  if h : i < line.length then .ok (line.get ⟨i, h⟩)
  else if i = line.length then .ok (Char.ofNat 0)
  else .error .outOfBounds

/-- The loop `for (i = 3; line[i] != ','; i++, j++) hex[j] = line[i];` of
`Simulate::run`, on the characters from index 3 on: the characters in front of
the first comma. Without a comma the loop passes the terminating NUL and then
reads past the end of the string. -/
def scanHex : List Char → Except Fault (List Char)
  | [] => .error .outOfBounds
  | ch :: rest =>
    if ch ≠ ',' then do
      let more ← scanHex rest
      pure (ch :: more)
    else .ok []

/-- Value of a hexadecimal digit, as `strtoul` reads it in base 16. -/
def hexDigit (ch : Char) : Option Nat :=
  if '0' ≤ ch ∧ ch ≤ '9' then some (ch.toNat - '0'.toNat)
  else if 'a' ≤ ch ∧ ch ≤ 'f' then some (ch.toNat - 'a'.toNat + 10)
  else if 'A' ≤ ch ∧ ch ≤ 'F' then some (ch.toNat - 'A'.toNat + 10)
  else none

/-- White space skipped by `strtoul`: blank and the characters 9 to 13. -/
def isSpace (ch : Char) : Bool := ch = ' ' ∨ (9 ≤ ch.toNat ∧ ch.toNat ≤ 13)

/-- The call `std::stoul(hex, &sz, 16)` on the characters of the scratch
string: white space, an optional sign, an optional `0x`, then the longest run
of hexadecimal digits. No digit throws `std::invalid_argument`; a value that
does not fit `unsigned long` throws `std::out_of_range`; a minus sign negates
in 64 bits. -/
def stoul16 (hex : List Char) : Except Fault Nat :=
  let afterSpace := hex.dropWhile isSpace
  let signed : Bool × List Char :=
    match afterSpace with
    | '-' :: r => (true, r)
    | '+' :: r => (false, r)
    | r => (false, r)
  let body : List Char :=
    match signed.2 with
    | '0' :: x :: d :: r =>
      if (x = 'x' ∨ x = 'X') ∧ (hexDigit d).isSome then d :: r else signed.2
    | r => r
  let digits := body.takeWhile (fun ch => (hexDigit ch).isSome)
  if digits = [] then .error .invalidArgument
  else
    let v := digits.foldl (fun acc ch => acc * 16 + (hexDigit ch).getD 0) 0
    if 2 ^ 64 ≤ v then .error .outOfRange
    else .ok (if signed.1 then (2 ^ 64 - v) % 2 ^ 64 else v)

/-- Body of the `while (getline(tracefile, line))` loop of `Simulate::run` for
one line. A line starting with `I` is skipped. Otherwise `memAccess = line[1]`,
the address characters are copied into the scratch string `hex` (declared
empty, so they land in the 16 bytes of its internal buffer: at most 15
characters and the closing NUL fit), `stoul` converts them, `getTag` and
`getSet` decode the address, and the switch performs one access for `L` and
`S`, two for `M`, none for another letter. -/
def Simulate.runLine (s : Simulate) (line : List Char) : Except Fault Simulate := do
  let first ← strAt line 0
  if first = 'I' then .ok s
  else
    let memAccess ← strAt line 1
    let hex ← scanHex (line.drop 3)
    if 15 < hex.length then .error .outOfBounds
    else
      let source ← stoul16 hex
      let tag ← s.cacheP.getTag source
      let set ← s.cacheP.getSet source
      if memAccess = 'L' then s.loadData tag set
      else if memAccess = 'S' then s.loadData tag set
      else if memAccess = 'M' then s.modify tag set
      else .ok s

/-- Function `Simulate::run` on the lines of an opened trace file. -/
def Simulate.run (s : Simulate) : List String → Except Fault Simulate
  | [] => .ok s
  | line :: rest => do
    let s1 ← s.runLine line.toList
    s1.run rest

/-- The cache with row `n` of `lines` replaced. -/
def Cache.withRow (c : Cache) (n : Nat) (row : List Line) : Cache :=
  { c with lines := c.lines.set n row }

/-- The effect of the shift loop on one row. -/
def shiftRow (row : List Line) : Nat → List Line
  | 0 => row
  | j + 1 => shiftRow (row.set (j + 1) (row.getD j Line.new)) j

/-- The storage has the shape the constructor allocates. -/
structure Cache.WellFormed (c : Cache) : Prop where
  rows : (c.lines.length : Int) = c.numSets
  slots : ∀ row ∈ c.lines, (row.length : Int) = c.associativity

/-- Values of the type `int64_t`. -/
def isInt64 (x : Int) : Prop := -2 ^ 63 ≤ x ∧ x < 2 ^ 63

instance (x : Int) : Decidable (isInt64 x) := by
  unfold isInt64; infer_instance

/-- Simulator states reachable from a newly constructed simulator by calls of
`loadData` that return. -/
inductive Reachable : Simulate → Prop
  | fresh {E b s : Int} {v : Bool} {sim : Simulate} :
      Simulate.new E b s v = .ok sim → Reachable sim
  | access {sim sim' : Simulate} {tag set : Int} :
      Reachable sim → isInt64 tag → isInt64 set →
      sim.loadData tag set = .ok sim' → Reachable sim'

/-- The valid lines of a row are a prefix of its slots. -/
def validFront (row : List Line) : Prop :=
  ∀ (i j : Nat) (l : Line), j ≤ i → row[i]? = some l → l.valid = true →
    ∃ l', row[j]? = some l' ∧ l'.valid = true

/-- Invariant of the reachable caches: allocated shape, valid lines in front. -/
structure Cache.Inv (c : Cache) : Prop where
  wf : c.WellFormed
  front : ∀ row ∈ c.lines, validFront row

/-- A new simulator with one set of two lines. -/
def twoWayFresh : Simulate :=
  ⟨⟨[[Line.new, Line.new]], 1, 2, 0, 0, false⟩, 0, 0, 0, false⟩

/-- The simulator `twoWayFresh` after the access with tag `7`. -/
def rowSeven : Simulate :=
  ⟨⟨[[⟨7, true⟩, Line.new]], 1, 2, 0, 0, false⟩, 0, 1, 0, false⟩

/-- The simulator `rowSeven` after the access with tag `9`. -/
def rowNineSeven : Simulate :=
  ⟨⟨[[⟨9, true⟩, ⟨7, true⟩]], 1, 2, 0, 0, false⟩, 0, 2, 0, false⟩

/-- The new simulator with two sets of two lines (`associativity = 2`,
`blockOffsetBits = 4`, `setIndexBits = 1`). -/
def twoSetsFresh : Simulate :=
  ⟨⟨[[Line.new, Line.new], [Line.new, Line.new]], 2, 2, 4, 1, false⟩, 0, 0, 0, false⟩

/-- The `switch (memAccess)` of `Simulate::run`: one `loadData` for `L` and for
`S`, two for `M`, none in the default branch (which only prints). -/
def Simulate.switchOn (s : Simulate) (memAccess : Char) (tag set : Int) :
    Except Fault Simulate :=
  if memAccess = 'L' then s.loadData tag set
  else if memAccess = 'S' then s.loadData tag set
  else if memAccess = 'M' then s.modify tag set
  else .ok s

/-- Number of `loadData` calls the switch makes for an operation letter. -/
def subAccesses (memAccess : Char) : Int :=
  if memAccess = 'L' then 1
  else if memAccess = 'S' then 1
  else if memAccess = 'M' then 2
  else 0

/-- Reference LRU model, following the words of the specification: per set a
list of tags, most recent first, and the three counters. -/
structure RefCache where
  sets : List (List Int)
  hits : Int
  misses : Int
  evictions : Int
deriving DecidableEq, Repr

/-- The reference model of a new cache: `numSets` empty lists, counters 0. -/
def RefCache.new (numSets : Nat) : RefCache :=
  { sets := List.replicate numSets [], hits := 0, misses := 0, evictions := 0 }

/-- One access in the reference model with associativity `E`: a hit moves the
tag to the front; a miss pushes the tag at the front and drops the last
element when the length would exceed `E`, counting an eviction. -/
def RefCache.access (E : Nat) (r : RefCache) (tag set : Int) : RefCache :=
  let l := r.sets.getD set.toNat []
  if tag ∈ l then
    { r with sets := r.sets.set set.toNat (tag :: l.erase tag), hits := r.hits + 1 }
  else if E < l.length + 1 then
    { r with
      sets := r.sets.set set.toNat (tag :: l.dropLast)
      misses := r.misses + 1
      evictions := r.evictions + 1 }
  else
    { r with sets := r.sets.set set.toNat (tag :: l), misses := r.misses + 1 }

/-- A sequence of accesses `(tag, set)` in the reference model. -/
def RefCache.accessAll (E : Nat) (r : RefCache) : List (Int × Int) → RefCache
  | [] => r
  | (tag, set) :: rest => (r.access E tag set).accessAll E rest

/-- The tags of the valid lines of a row, read from slot 0. -/
def validTags (row : List Line) : List Int :=
  (row.filter (fun l => l.valid)).map (fun l => l.tag)

/-- The row of `E` slots that holds the tags of `l` as valid lines in front and
new lines behind them. -/
def rowOf (E : Nat) (l : List Int) : List Line :=
  l.map (fun t => (⟨t, true⟩ : Line)) ++ List.replicate (E - l.length) Line.new

/-- Values of the type `int32_t`. -/
def isInt32 (x : Int) : Prop := -2 ^ 31 ≤ x ∧ x < 2 ^ 31

instance (x : Int) : Decidable (isInt32 x) := by
  unfold isInt32; infer_instance

/-- The simulator state corresponds to the reference state: every row is the
row of the reference list of its set, the counters agree, and no reference
list is longer than the associativity. -/
structure Refines (sim : Simulate) (r : RefCache) (E : Nat) : Prop where
  rows : sim.cacheP.lines = r.sets.map (rowOf E)
  assoc : sim.cacheP.associativity = (E : Int)
  sets : (r.sets.length : Int) = sim.cacheP.numSets
  short : ∀ l ∈ r.sets, l.length ≤ E
  hits : sim.hits = r.hits
  misses : sim.misses = r.misses
  evictions : sim.evictions = r.evictions

/-- The reference state after a sequence of accesses to a new cache. -/
def RefCache.after (E numSets : Nat) (accs : List (Int × Int)) : RefCache :=
  (RefCache.new numSets).accessAll E accs

/-- The operator `++` on an `int32_t` counter: one more, and no value when the
counter holds `2^31 - 1`, the largest `int32_t`. -/
def incr32 (x : Int) : Except Fault Int :=
  if x < 2147483647 then .ok (x + 1) else .error .counterOverflow

/-- Function `Simulate::loadData` with the `int32_t` range of the counters of
`Simulate.h`: the statements of `loadData` in the same order, each `++` being
`incr32`. It agrees with `loadData` as long as the counters are below
`2^31 - 1` (lemmas `loadData32_of_loadData`, `loadData_of_loadData32`). -/
def Simulate.loadData32 (s : Simulate) (tag set : Int) : Except Fault Simulate := do
  if (← s.cacheP.presentInCache set tag) then
    let hits ← incr32 s.hits
    let s1 := { s with hits := hits }
    let c ← s1.cacheP.updateLRUHit set tag
    pure { s1 with cacheP := c }
  else
    let misses ← incr32 s.misses
    let s1 := { s with misses := misses }
    let full ← s1.cacheP.isFull set
    let s2 ← if full then (do
        let evictions ← incr32 s1.evictions
        pure { s1 with evictions := evictions })
      else pure s1
    let c ← s2.cacheP.updateCache set tag
    pure { s2 with cacheP := c }

/-- A sequence of `loadData` calls, each given as `(tag, set)`, with the
`int32_t` range of the counters. -/
def Simulate.loadAll32 (s : Simulate) : List (Int × Int) → Except Fault Simulate
  | [] => .ok s
  | (tag, set) :: rest => do
    let s1 ← s.loadData32 tag set
    s1.loadAll32 rest

/-- The cache of `twoSetsFresh` after the access with tag `7` to set 1. -/
def sevenInSetOne : Cache :=
  ⟨[[Line.new, Line.new], [⟨7, true⟩, Line.new]], 2, 2, 4, 1, false⟩

/-! Lemmas and theorems. -/

theorem shift_extract (source l h : Nat) (hl : l ≤ h) (hh : h ≤ 63) :
    (((source <<< (63 - h)) % 2 ^ 64) >>> (63 - h)) >>> l
      = (source / 2 ^ l) % 2 ^ (h - l + 1) := by
  have e64 : (2 : Nat) ^ 64 = 2 ^ (h + 1) * 2 ^ (63 - h) := by
    rw [← pow_add]; congr 1; omega
  have eh : (2 : Nat) ^ (h + 1) = 2 ^ l * 2 ^ (h - l + 1) := by
    rw [← pow_add]; congr 1; omega
  rw [Nat.shiftLeft_eq, Nat.shiftRight_eq_div_pow, Nat.shiftRight_eq_div_pow, e64,
    Nat.mul_mod_mul_right, Nat.mul_div_cancel _ (by positivity), eh,
    Nat.mod_mul_right_div_self]

theorem getBits_ok (source : Nat) (low high : Int) (h : 0 ≤ low ∧ low ≤ high ∧ high ≤ 63) :
    getBits source low high = .ok ((source / 2 ^ low.toNat) % 2 ^ (high - low + 1).toNat) := by
  obtain ⟨h0, h1, h2⟩ := h
  have hr : rangeOk low high := ⟨h0, by omega, h1, h2⟩
  have e1 : (63 - high).toNat = 63 - high.toNat := by omega
  have e2 : (high - low + 1).toNat = high.toNat - low.toNat + 1 := by omega
  simp only [getBits, hr, if_true, e1, e2]
  rw [shift_extract source low.toNat high.toNat (by omega) (by omega)]

theorem line_cast (c : Cache) (n i : Nat) :
    c.line n i = match c.lines[n]? with
      | none => .error .outOfBounds
      | some row => match row[i]? with
        | none => .error .outOfBounds
        | some l => .ok l := by
  unfold Cache.line
  have h : ¬ ((n : Int) < 0 ∨ (i : Int) < 0) := by omega
  simp only [h, if_false, Int.toNat_ofNat]

theorem line_of_row {c : Cache} {n i : Nat} {row : List Line} {l : Line}
    (hrow : c.lines[n]? = some row) (hl : row[i]? = some l) : c.line n i = .ok l := by
  rw [line_cast, hrow]; simp only [hl]

theorem setLine_of_row {c : Cache} {n i : Nat} {row : List Line} (l : Line)
    (hrow : c.lines[n]? = some row) (hi : i < row.length) :
    c.setLine n i l = .ok (c.withRow n (row.set i l)) := by
  unfold Cache.setLine
  have h : ¬ ((n : Int) < 0 ∨ (i : Int) < 0) := by omega
  simp only [h, if_false, Int.toNat_ofNat, hrow, hi, if_true, Cache.withRow]

theorem lt_of_row {c : Cache} {n : Nat} {row : List Line}
    (hrow : c.lines[n]? = some row) : n < c.lines.length := by
  rcases Nat.lt_or_ge n c.lines.length with h | h
  · exact h
  · rw [List.getElem?_eq_none h] at hrow; cases hrow

theorem withRow_lines_same {c : Cache} {n : Nat} {row : List Line} (r : List Line)
    (hrow : c.lines[n]? = some row) : (c.withRow n r).lines[n]? = some r := by
  have hn : n < c.lines.length := lt_of_row hrow
  simp [Cache.withRow, List.getElem?_set, hn]

theorem withRow_lines_other (c : Cache) {n m : Nat} (r : List Line) (h : n ≠ m) :
    (c.withRow n r).lines[m]? = c.lines[m]? := by
  simp [Cache.withRow, List.getElem?_set, h]

theorem withRow_withRow (c : Cache) (n : Nat) (r1 r2 : List Line) :
    (c.withRow n r1).withRow n r2 = c.withRow n r2 := by
  simp [Cache.withRow, List.set_set]

theorem withRow_self {c : Cache} {n : Nat} {row : List Line}
    (hrow : c.lines[n]? = some row) : c.withRow n row = c := by
  have : c.lines.set n row = c.lines := by
    apply List.ext_getElem?
    intro m
    rw [List.getElem?_set]
    by_cases h : n = m
    · subst h; simp [lt_of_row hrow, hrow]
    · simp [h]
  simp [Cache.withRow, this]

theorem shiftRow_length (row : List Line) (j : Nat) : (shiftRow row j).length = row.length := by
  induction j generalizing row with
  | zero => rfl
  | succ j ih => simp [shiftRow, ih]

theorem shiftRow_get (row : List Line) (j : Nat) (hj : j < row.length) (m : Nat) :
    (shiftRow row j)[m]? = if 1 ≤ m ∧ m ≤ j then row[m - 1]? else row[m]? := by
  induction j generalizing row with
  | zero =>
    have : ¬ (1 ≤ m ∧ m ≤ 0) := by omega
    simp only [shiftRow, this, if_false]
  | succ j ih =>
    have hj' : j < (row.set (j + 1) (row.getD j Line.new)).length := by
      simp; omega
    rw [shiftRow, ih _ hj']
    have hget : row.getD j Line.new = row[j] := by
      simp [List.getD, List.getElem?_eq_getElem (show j < row.length by omega)]
    by_cases h1 : 1 ≤ m ∧ m ≤ j
    · have h2 : 1 ≤ m ∧ m ≤ j + 1 := by omega
      have h3 : j + 1 ≠ m - 1 := by omega
      simp only [h1, h2, and_self, if_true, List.getElem?_set, h3, if_false]
    · by_cases h4 : m = j + 1
      · subst h4
        have h2 : 1 ≤ j + 1 ∧ j + 1 ≤ j + 1 := by omega
        simp only [h1, h2, and_self, if_true, if_false, List.getElem?_set, hj, hget]
        simp [List.getElem?_eq_getElem (show j < row.length by omega)]
      · have h2 : ¬ (1 ≤ m ∧ m ≤ j + 1) := by omega
        have h3 : j + 1 ≠ m := by omega
        simp only [h1, h2, if_false, List.getElem?_set, h3]

theorem shiftFrom_of_row {c : Cache} {n : Nat} {row : List Line} (j : Nat)
    (hrow : c.lines[n]? = some row) (hj : j < row.length) :
    c.shiftFrom n j = .ok (c.withRow n (shiftRow row j)) := by
  induction j generalizing c row with
  | zero => simp [Cache.shiftFrom, shiftRow, withRow_self hrow]
  | succ j ih =>
    have hget : row[j]? = some (row.getD j Line.new) := by
      simp [List.getD, List.getElem?_eq_getElem (show j < row.length by omega)]
    have h1 := line_of_row hrow hget
    have h2 := setLine_of_row (row.getD j Line.new) hrow hj
    have h3 := withRow_lines_same (row.set (j + 1) (row.getD j Line.new)) hrow
    have h4 := ih h3 (by simp; omega)
    unfold Cache.shiftFrom
    rw [h1]
    simp only [Except.bind, bind]
    rw [h2]
    simp only []
    rw [h4, withRow_withRow, shiftRow]

theorem row_of_wf {c : Cache} (hwf : c.WellFormed) {S : Int} (h0 : 0 ≤ S) (h1 : S < c.numSets) :
    ∃ (n : Nat) (row : List Line), S = (n : Int) ∧ c.lines[n]? = some row ∧
      (row.length : Int) = c.associativity := by
  obtain ⟨n, rfl⟩ := Int.eq_ofNat_of_zero_le h0
  have hn : n < c.lines.length := by have := hwf.rows; omega
  exact ⟨n, c.lines[n], rfl, List.getElem?_eq_getElem hn,
    hwf.slots _ (List.getElem_mem hn)⟩

theorem line_ok_inv {c : Cache} {S i : Int} {l : Line} (h : c.line S i = .ok l) :
    ∃ (n k : Nat) (row : List Line), S = (n : Int) ∧ i = (k : Int) ∧
      c.lines[n]? = some row ∧ row[k]? = some l := by
  unfold Cache.line at h
  by_cases hneg : S < 0 ∨ i < 0
  · simp [hneg] at h
  · simp only [hneg, if_false] at h
    have hS : 0 ≤ S := by omega
    have hi : 0 ≤ i := by omega
    obtain ⟨n, rfl⟩ := Int.eq_ofNat_of_zero_le hS
    obtain ⟨k, rfl⟩ := Int.eq_ofNat_of_zero_le hi
    simp only [Int.toNat_ofNat] at h
    cases hr : c.lines[n]? with
    | none => simp [hr] at h
    | some row =>
      simp only [hr] at h
      cases hl : row[k]? with
      | none => simp [hl] at h
      | some l' =>
        simp only [hl, Except.ok.injEq] at h
        subst h
        exact ⟨n, k, row, rfl, rfl, hr, hl⟩

theorem line_withRow_same {c : Cache} {n : Nat} {row : List Line} (r : List Line)
    (hrow : c.lines[n]? = some row) (i : Int) :
    (c.withRow n r).line n i = (if i < 0 then .error .outOfBounds else
      match r[i.toNat]? with
      | none => .error .outOfBounds
      | some l => .ok l) := by
  unfold Cache.line
  by_cases hi : i < 0
  · simp [hi]
  · have hn : ¬ ((n : Int) < 0) := by omega
    simp only [hn, hi, or_self, if_false, Int.toNat_ofNat, withRow_lines_same r hrow]

theorem line_withRow_other (c : Cache) (n : Nat) (r : List Line) {S : Int} (h : S ≠ (n : Int))
    (i : Int) : (c.withRow n r).line S i = c.line S i := by
  unfold Cache.line
  by_cases hneg : S < 0 ∨ i < 0
  · simp [hneg]
  · have hne : n ≠ S.toNat := by omega
    simp only [hneg, if_false, withRow_lines_other c r hne]

theorem updateCache_of_row {c : Cache} {n : Nat} {row : List Line} (T : Int)
    (hrow : c.lines[n]? = some row) (hlen : 1 ≤ row.length)
    (hE : c.associativity = (row.length : Int)) :
    ∃ row', c.updateCache n T = .ok (c.withRow n row') ∧ row'.length = row.length ∧
      row'[0]? = some ⟨T, true⟩ ∧ ∀ i, i + 1 < row.length → row'[i + 1]? = row[i]? := by
  have hj : (c.associativity - 1).toNat < row.length := by omega
  have h1 := shiftFrom_of_row (c.associativity - 1).toNat hrow hj
  set r1 := shiftRow row (c.associativity - 1).toNat with hr1
  have hr1len : r1.length = row.length := shiftRow_length _ _
  have hrow1 := withRow_lines_same r1 hrow
  have hne : r1 ≠ [] := by
    intro h; rw [h] at hr1len; simp at hr1len; omega
  have h01 : r1[0]? = some r1[0] := List.getElem?_eq_getElem (by omega)
  have h2 := line_of_row hrow1 h01
  have h3 := setLine_of_row { r1[0] with tag := T } hrow1 (show 0 < r1.length by omega)
  rw [withRow_withRow] at h3
  set r2 := r1.set 0 { r1[0] with tag := T } with hr2
  have hrow2 := withRow_lines_same r2 hrow
  have h02 : r2[0]? = some { r1[0] with tag := T } := by
    simp [hr2, List.getElem?_set, hne]
  have h4 := line_of_row hrow2 h02
  have h5 := setLine_of_row { ({ r1[0] with tag := T } : Line) with valid := true } hrow2
    (show 0 < r2.length by simp [hr2]; omega)
  rw [withRow_withRow] at h5
  refine ⟨r2.set 0 ⟨T, true⟩, ?_, ?_, ?_, ?_⟩
  · unfold Cache.updateCache Cache.updateLRU
    simp only [Nat.cast_zero] at h2 h3 h4 h5
    rw [h1]
    simp only [bind, Except.bind]
    rw [h2]
    simp only []
    rw [h3]
    simp only []
    rw [h4]
    simp only []
    rw [h5]
  · simp [hr2, hr1len]
  · simp [hr2, List.getElem?_set, hne]
  · intro i hi
    have := shiftRow_get row (c.associativity - 1).toNat hj (i + 1)
    have hcond : 1 ≤ i + 1 ∧ i + 1 ≤ (c.associativity - 1).toNat := by omega
    simp only [hcond, and_self, if_true, Nat.add_sub_cancel] at this
    simp [hr2, List.getElem?_set, ← hr1, this]

theorem wf_withRow {c : Cache} (hwf : c.WellFormed) (n : Nat) {r : List Line}
    (hr : (r.length : Int) = c.associativity) : (c.withRow n r).WellFormed := by
  constructor
  · simpa [Cache.withRow] using hwf.rows
  · intro row hmem
    rcases List.mem_or_eq_of_mem_set hmem with h | h
    · exact hwf.slots row h
    · rw [h]; exact hr

/-- C4. Miss insertion: on a well-formed cache with associativity at least 1,
`updateCache(S, T)` returns; afterwards slot 0 of set `S` is `{T, valid}`, slot
`i + 1` of `S` holds the line that was in slot `i` for every `0 ≤ i < E - 1`
(so the former last line is gone), every other set is unchanged, and the
geometry is unchanged. -/
theorem updateCache_post (c : Cache) (S T : Int) (hwf : c.WellFormed)
    (hE : 1 ≤ c.associativity) (hS0 : 0 ≤ S) (hS1 : S < c.numSets) :
    ∃ c', c.updateCache S T = .ok c' ∧
      c'.line S 0 = .ok ⟨T, true⟩ ∧
      (∀ i : Int, 0 ≤ i → i < c.associativity - 1 → c'.line S (i + 1) = c.line S i) ∧
      (∀ S' : Int, S' ≠ S → ∀ i : Int, c'.line S' i = c.line S' i) ∧
      c'.WellFormed ∧ c'.numSets = c.numSets ∧ c'.associativity = c.associativity := by
  obtain ⟨n, row, rfl, hrow, hlen⟩ := row_of_wf hwf hS0 hS1
  obtain ⟨row', hok, hlen', h0, hshift⟩ :=
    updateCache_of_row T hrow (by omega) hlen.symm
  refine ⟨c.withRow n row', hok, ?_, ?_, ?_, ?_, rfl, rfl⟩
  · rw [line_withRow_same row' hrow]
    simp [h0]
  · intro i hi0 hi1
    obtain ⟨k, rfl⟩ := Int.eq_ofNat_of_zero_le hi0
    rw [line_withRow_same row' hrow, line_cast, hrow]
    have hneg : ¬ ((k : Int) + 1 < 0) := by omega
    have hk : ((k : Int) + 1).toNat = k + 1 := by omega
    simp only [hneg, if_false, hk, hshift k (by omega)]
  · intro S' hne i
    exact line_withRow_other c n row' hne i
  · exact wf_withRow hwf n (by omega)

/-- Witness for C4: a two-way set `[7, 9]` receives tag `5`. -/
theorem updateCache_post_witness :
    ∃ c', (Cache.mk [[⟨7, true⟩, ⟨9, true⟩]] 1 2 0 0 false).updateCache 0 5 = .ok c' ∧
      c'.line 0 0 = .ok ⟨5, true⟩ ∧
      (∀ i : Int, 0 ≤ i → i < (2 : Int) - 1 →
        c'.line 0 (i + 1) = (Cache.mk [[⟨7, true⟩, ⟨9, true⟩]] 1 2 0 0 false).line 0 i) ∧
      (∀ S' : Int, S' ≠ 0 → ∀ i : Int,
        c'.line S' i = (Cache.mk [[⟨7, true⟩, ⟨9, true⟩]] 1 2 0 0 false).line S' i) ∧
      c'.WellFormed ∧ c'.numSets = 1 ∧ c'.associativity = 2 :=
  updateCache_post (Cache.mk [[⟨7, true⟩, ⟨9, true⟩]] 1 2 0 0 false) 0 5
    ⟨by decide, by decide⟩ (by decide) (by decide) (by decide)

theorem get_of_lt {row : List Line} {i : Nat} (h : i < row.length) : ∃ l, row[i]? = some l :=
  ⟨row[i], List.getElem?_eq_getElem h⟩

theorem lt_of_get {row : List Line} {i : Nat} {l : Line} (h : row[i]? = some l) :
    i < row.length := by
  rcases Nat.lt_or_ge i row.length with h' | h'
  · exact h'
  · rw [List.getElem?_eq_none h'] at h; cases h

theorem presentFrom_of_row {c : Cache} {n : Nat} {row : List Line} (T : Int)
    (hrow : c.lines[n]? = some row) (s m : Nat) (h : s + m ≤ row.length) :
    ∃ b, c.presentFrom n T (List.range' s m) = .ok b ∧ (b = true ↔ ∃ i, s ≤ i ∧ i < s + m ∧
      ∃ l, row[i]? = some l ∧ l.tag = T ∧ l.valid = true) := by
  induction m generalizing s with
  | zero =>
    refine ⟨false, by simp only [List.range'_zero, Cache.presentFrom], ?_⟩
    constructor
    · intro hf; cases hf
    · rintro ⟨i, h1, h2, _⟩; omega
  | succ m ih =>
    obtain ⟨ls, hget⟩ := get_of_lt (show s < row.length by omega)
    rw [List.range'_succ, Cache.presentFrom, line_of_row hrow hget]
    simp only [bind, Except.bind]
    by_cases hm : ls.tag = T ∧ ls.valid = true
    · refine ⟨true, by simp only [hm, and_self, if_true], ?_⟩
      simp only [true_iff]
      exact ⟨s, le_refl _, by omega, ls, hget, hm.1, hm.2⟩
    · rw [if_neg hm]
      obtain ⟨b, hb, hiff⟩ := ih (s + 1) (by omega)
      refine ⟨b, hb, hiff.trans ?_⟩
      constructor
      · rintro ⟨i, h1, h2, hl⟩
        exact ⟨i, by omega, by omega, hl⟩
      · rintro ⟨i, h1, h2, l, hl, ht, hv⟩
        rcases Nat.eq_or_lt_of_le h1 with heq | hlt
        · subst heq
          rw [hget] at hl
          cases hl
          exact absurd ⟨ht, hv⟩ hm
        · exact ⟨i, by omega, by omega, l, hl, ht, hv⟩

theorem presentInCache_of_row {c : Cache} {n : Nat} {row : List Line} (T : Int)
    (hrow : c.lines[n]? = some row) (hE : c.associativity = (row.length : Int)) :
    ∃ b, c.presentInCache n T = .ok b ∧
      (b = true ↔ ∃ (i : Nat) (l : Line), row[i]? = some l ∧ l.tag = T ∧ l.valid = true) := by
  unfold Cache.presentInCache
  have hn : c.associativity.toNat = row.length := by omega
  rw [List.range_eq_range', hn]
  obtain ⟨b, hb, hiff⟩ := presentFrom_of_row T hrow 0 row.length (by omega)
  refine ⟨b, hb, hiff.trans ?_⟩
  constructor
  · rintro ⟨i, _, _, l, h⟩
    exact ⟨i, l, h⟩
  · rintro ⟨i, l, hl, h⟩
    have hi : i < row.length := lt_of_get hl
    exact ⟨i, Nat.zero_le _, by omega, l, hl, h⟩

theorem findTag_of_row {c : Cache} {n : Nat} {row : List Line} (T : Int)
    (hrow : c.lines[n]? = some row) (k : Nat) (hk : ∃ l, row[k]? = some l ∧ l.tag = T)
    (s m : Nat) (h : s + m ≤ row.length) (hk1 : s ≤ k) (hk2 : k < s + m)
    (hfirst : ∀ j, s ≤ j → j < k → ∀ l, row[j]? = some l → l.tag ≠ T) :
    c.findTag n T (List.range' s m) = .ok (k : Int) := by
  induction m generalizing s with
  | zero => omega
  | succ m ih =>
    obtain ⟨ls, hget⟩ := get_of_lt (show s < row.length by omega)
    rw [List.range'_succ, Cache.findTag, line_of_row hrow hget]
    simp only [bind, Except.bind]
    rcases Nat.eq_or_lt_of_le hk1 with heq | hlt
    · subst heq
      obtain ⟨l, hl, ht⟩ := hk
      rw [hget] at hl
      cases hl
      simp only [ht, if_true]
    · have hne : ls.tag ≠ T := hfirst s (le_refl _) hlt _ hget
      rw [if_neg hne]
      exact ih (s + 1) (by omega) (by omega) (by omega)
        (fun j hj1 hj2 => hfirst j (by omega) hj2)

/-- Effect of `updateLRUHit` on a row whose first slot with tag `T` is `k`. -/
theorem updateLRUHit_of_row {c : Cache} {n : Nat} {row : List Line} (T : Int)
    (hrow : c.lines[n]? = some row) (hE : c.associativity = (row.length : Int))
    (k : Nat) (lk : Line) (hk : row[k]? = some lk) (hT : lk.tag = T)
    (hfirst : ∀ j, j < k → ∀ l, row[j]? = some l → l.tag ≠ T) :
    ∃ row' l0, c.updateLRUHit n T = .ok (c.withRow n row') ∧ row'.length = row.length ∧
      row[0]? = some l0 ∧
      row'[0]? = some ⟨if k = 0 then T else toInt32 T, l0.valid⟩ ∧
      (∀ i, i < k → row'[i + 1]? = row[i]?) ∧
      (∀ i, k < i → row'[i]? = row[i]?) := by
  have hklt : k < row.length := lt_of_get hk
  obtain ⟨l0, h0⟩ := get_of_lt (show 0 < row.length by omega)
  have hl0 := line_of_row hrow h0
  simp only [Nat.cast_zero] at hl0
  by_cases hk0 : k = 0
  · subst hk0
    rw [h0] at hk
    cases hk
    refine ⟨row, lk, ?_, rfl, h0, ?_, ?_, ?_⟩
    · unfold Cache.updateLRUHit
      rw [hl0]
      simp only [bind, Except.bind, hT, ne_eq, not_true_eq_false, if_false, withRow_self hrow]
    · rw [h0, if_pos rfl, ← hT]
    · intro i hi; omega
    · intro i _; rfl
  · have hne : l0.tag ≠ T := hfirst 0 (by omega) _ h0
    have hn : c.associativity.toNat = row.length := by omega
    have hfind := findTag_of_row T hrow k ⟨lk, hk, hT⟩ 0 row.length (by omega) (by omega)
      (by omega) (fun j _ hj => hfirst j hj)
    have hlk := line_of_row hrow hk
    have hshift := shiftFrom_of_row k hrow hklt
    have hr1len : (shiftRow row k).length = row.length := shiftRow_length _ _
    have hr1ne : shiftRow row k ≠ [] := by
      intro h; rw [h] at hr1len; simp at hr1len; omega
    have hrow1 := withRow_lines_same (shiftRow row k) hrow
    have h01 : (shiftRow row k)[0]? = some l0 := by
      rw [shiftRow_get row k hklt 0]
      simp [h0]
    have hl01 := line_of_row hrow1 h01
    have hset := setLine_of_row { l0 with tag := toInt32 lk.tag } hrow1
      (show 0 < (shiftRow row k).length by omega)
    rw [withRow_withRow] at hset
    simp only [Nat.cast_zero] at hl01 hset
    refine ⟨(shiftRow row k).set 0 ⟨toInt32 T, l0.valid⟩, l0, ?_, ?_, h0, ?_, ?_, ?_⟩
    · unfold Cache.updateLRUHit
      rw [hl0]
      simp only [bind, Except.bind, ne_eq, hne, not_false_eq_true, if_true]
      rw [List.range_eq_range', hn, hfind]
      simp only [Int.toNat_ofNat]
      rw [hlk]
      simp only []
      rw [hshift]
      simp only []
      rw [hl01]
      simp only []
      rw [hset, hT]
    · simp [hr1len]
    · simp [List.getElem?_set, hr1ne, hk0]
    · intro i hi
      rw [List.getElem?_set]
      have h1 : ¬ (0 = i + 1) := by omega
      rw [if_neg h1, shiftRow_get row k hklt (i + 1)]
      have hcond : 1 ≤ i + 1 ∧ i + 1 ≤ k := by omega
      simp only [hcond, and_self, if_true, Nat.add_sub_cancel]
    · intro i hi
      rw [List.getElem?_set]
      have h1 : ¬ (0 = i) := by omega
      rw [if_neg h1, shiftRow_get row k hklt i]
      have hcond : ¬ (1 ≤ i ∧ i ≤ k) := by omega
      simp only [hcond, if_false]

theorem isFull_of_row {c : Cache} {n : Nat} {row : List Line}
    (hrow : c.lines[n]? = some row) (hE : c.associativity = (row.length : Int))
    {l : Line} (hl : row[row.length - 1]? = some l) : c.isFull n = .ok l.valid := by
  have hlt := lt_of_get hl
  have hidx : c.associativity - 1 = ((row.length - 1 : Nat) : Int) := by omega
  unfold Cache.isFull
  rw [hidx, line_of_row hrow hl]
  rfl

theorem loadData_hit {s : Simulate} {tag set : Int} {c' : Cache}
    (hp : s.cacheP.presentInCache set tag = .ok true)
    (hu : s.cacheP.updateLRUHit set tag = .ok c') :
    s.loadData tag set = .ok { s with hits := s.hits + 1, cacheP := c' } := by
  unfold Simulate.loadData
  simp only [hp, hu, bind, Except.bind, if_true, pure, Except.pure]

theorem loadData_miss {s : Simulate} {tag set : Int} {c' : Cache} {full : Bool}
    (hp : s.cacheP.presentInCache set tag = .ok false)
    (hf : s.cacheP.isFull set = .ok full)
    (hu : s.cacheP.updateCache set tag = .ok c') :
    s.loadData tag set = .ok { s with
      misses := s.misses + 1
      evictions := if full then s.evictions + 1 else s.evictions
      cacheP := c' } := by
  unfold Simulate.loadData
  cases full <;>
    simp only [hp, hf, hu, bind, Except.bind, if_true, if_false, pure, Except.pure,
      Bool.false_eq_true]

theorem first_tag (row : List Line) (T : Int) (i : Nat) :
    ∀ l, row[i]? = some l → l.tag = T →
      ∃ k lk, k ≤ i ∧ row[k]? = some lk ∧ lk.tag = T ∧
        ∀ j, j < k → ∀ l', row[j]? = some l' → l'.tag ≠ T := by
  induction i using Nat.strong_induction_on with
  | _ i ih =>
    intro l hl ht
    by_cases h : ∀ j, j < i → ∀ l', row[j]? = some l' → l'.tag ≠ T
    · exact ⟨i, l, le_refl _, hl, ht, h⟩
    · push_neg at h
      obtain ⟨j, hj, l', hl', ht'⟩ := h
      obtain ⟨k, lk, hk, h1, h2, h3⟩ := ih j hj l' hl' ht'
      exact ⟨k, lk, by omega, h1, h2, h3⟩

theorem inv_withRow {c : Cache} (hinv : c.Inv) (n : Nat) {r : List Line}
    (hr : (r.length : Int) = c.associativity) (hp : validFront r) : (c.withRow n r).Inv := by
  constructor
  · exact wf_withRow hinv.wf n hr
  · intro row hmem
    rcases List.mem_or_eq_of_mem_set hmem with h | h
    · exact hinv.front row h
    · rw [h]; exact hp

theorem row_mem {c : Cache} {n : Nat} {row : List Line} (hrow : c.lines[n]? = some row) :
    row ∈ c.lines := by
  have hn := lt_of_row hrow
  rw [List.getElem?_eq_getElem hn] at hrow
  cases hrow
  exact List.getElem_mem hn

/-- After a hit on a row with valid lines in front, every slot keeps its valid flag. -/
theorem hit_valid_same {row row' : List Line} {k i : Nat} {l0 li : Line} {t0 : Int}
    (hp : validFront row)
    (hi : row[i]? = some li) (hiv : li.valid = true) (hki : k ≤ i)
    (h0 : row[0]? = some l0) (h0' : row'[0]? = some ⟨t0, l0.valid⟩)
    (hlow : ∀ j, j < k → row'[j + 1]? = row[j]?)
    (hhigh : ∀ j, k < j → row'[j]? = row[j]?) (j : Nat) :
    (row'[j]?).map Line.valid = (row[j]?).map Line.valid := by
  rcases Nat.eq_zero_or_pos j with hj | hj
  · subst hj; rw [h0, h0']; rfl
  · by_cases hjk : j ≤ k
    · obtain ⟨j', rfl⟩ : ∃ j', j = j' + 1 := ⟨j - 1, by omega⟩
      rw [hlow j' (by omega)]
      obtain ⟨a, ha, hav⟩ := hp i j' li (by omega) hi hiv
      obtain ⟨b, hb, hbv⟩ := hp i (j' + 1) li (by omega) hi hiv
      rw [ha, hb]; simp [hav, hbv]
    · rw [hhigh j (by omega)]

theorem validFront_of_valid_same {row row' : List Line} (hp : validFront row)
    (h : ∀ j : Nat, (row'[j]?).map Line.valid = (row[j]?).map Line.valid) :
    validFront row' := by
  intro i j l hji hl hv
  have hi := h i
  rw [hl] at hi
  cases hri : row[i]? with
  | none => rw [hri] at hi; cases hi
  | some a =>
    rw [hri] at hi
    simp only [Option.map_some', Option.some.injEq] at hi
    obtain ⟨b, hb, hbv⟩ := hp i j a hji hri (by rw [← hi]; exact hv)
    have hj := h j
    rw [hb] at hj
    cases hrj : row'[j]? with
    | none => rw [hrj] at hj; cases hj
    | some b' =>
      rw [hrj] at hj
      simp only [Option.map_some', Option.some.injEq] at hj
      exact ⟨b', rfl, by rw [hj]; exact hbv⟩

theorem validFront_insert {row row' : List Line} {T : Int} (hp : validFront row)
    (hlen : row'.length = row.length) (h0 : row'[0]? = some ⟨T, true⟩)
    (hshift : ∀ i, i + 1 < row.length → row'[i + 1]? = row[i]?) : validFront row' := by
  intro i j l hji hl hv
  rcases Nat.eq_zero_or_pos j with hj | hj
  · subst hj; exact ⟨_, h0, rfl⟩
  · obtain ⟨j', rfl⟩ : ∃ j', j = j' + 1 := ⟨j - 1, by omega⟩
    obtain ⟨i', rfl⟩ : ∃ i', i = i' + 1 := ⟨i - 1, by omega⟩
    have hi : i' + 1 < row.length := by have := lt_of_get hl; omega
    rw [hshift i' hi] at hl
    obtain ⟨b, hb, hbv⟩ := hp i' j' l (by omega) hl hv
    exact ⟨b, by rw [hshift j' (by omega)]; exact hb, hbv⟩

theorem loadData_cases {s s' : Simulate} {tag set : Int} (h : s.loadData tag set = .ok s') :
    (s.cacheP.presentInCache set tag = .ok true ∧
      ∃ c', s.cacheP.updateLRUHit set tag = .ok c' ∧
        s' = { s with hits := s.hits + 1, cacheP := c' }) ∨
    (s.cacheP.presentInCache set tag = .ok false ∧
      ∃ full c', s.cacheP.isFull set = .ok full ∧ s.cacheP.updateCache set tag = .ok c' ∧
        s' = { s with
          misses := s.misses + 1
          evictions := if full then s.evictions + 1 else s.evictions
          cacheP := c' }) := by
  unfold Simulate.loadData at h
  cases hp : s.cacheP.presentInCache set tag with
  | error e => simp [hp, bind, Except.bind] at h
  | ok b =>
    cases b with
    | true =>
      left
      refine ⟨rfl, ?_⟩
      cases hu : s.cacheP.updateLRUHit set tag with
      | error e => simp [hp, hu, bind, Except.bind] at h
      | ok c' =>
        refine ⟨c', rfl, ?_⟩
        simp only [hp, hu, bind, Except.bind, if_true, pure, Except.pure, Except.ok.injEq] at h
        exact h.symm
    | false =>
      right
      refine ⟨rfl, ?_⟩
      cases hf : s.cacheP.isFull set with
      | error e => simp [hp, hf, bind, Except.bind] at h
      | ok full =>
        cases hu : s.cacheP.updateCache set tag with
        | error e => cases full <;> simp [hp, hf, hu, bind, Except.bind] at h
        | ok c' =>
          refine ⟨full, c', rfl, rfl, ?_⟩
          cases full <;>
            simp only [hp, hf, hu, bind, Except.bind, if_true, if_false, pure, Except.pure,
              Except.ok.injEq, Bool.false_eq_true] at h <;> exact h.symm

theorem updateLRUHit_ok_inv {c c' : Cache} {S T : Int} (h : c.updateLRUHit S T = .ok c') :
    ∃ l, c.line S 0 = .ok l := by
  unfold Cache.updateLRUHit at h
  cases hl : c.line S 0 with
  | error e => simp [hl, bind, Except.bind] at h
  | ok l => exact ⟨l, rfl⟩

theorem isFull_ok_inv {c : Cache} {S : Int} {f : Bool} (h : c.isFull S = .ok f) :
    ∃ l, c.line S (c.associativity - 1) = .ok l := by
  unfold Cache.isFull at h
  cases hl : c.line S (c.associativity - 1) with
  | error e => simp [hl, bind, Except.bind] at h
  | ok l => exact ⟨l, rfl⟩

/-- A `loadData` call that returns replaced one row of a cache satisfying the
invariant, and the invariant still holds. -/
theorem inv_loadData {s s' : Simulate} {tag set : Int} (hinv : s.cacheP.Inv)
    (h : s.loadData tag set = .ok s') : s'.cacheP.Inv := by
  rcases loadData_cases h with ⟨hp, c', hu, rfl⟩ | ⟨hp, full, c', hf, hu, rfl⟩
  · obtain ⟨l, hl⟩ := updateLRUHit_ok_inv hu
    obtain ⟨n, k, row, rfl, _, hrow, _⟩ := line_ok_inv hl
    have hlen := hinv.wf.slots row (row_mem hrow)
    have hpre := hinv.front row (row_mem hrow)
    obtain ⟨b, hb, hiff⟩ := presentInCache_of_row tag hrow hlen.symm
    rw [hp] at hb
    cases hb
    obtain ⟨i, li, hli, hlt, hlv⟩ := hiff.mp rfl
    obtain ⟨k, lk, hki, hk, hkt, hfirst⟩ := first_tag row tag i li hli hlt
    obtain ⟨row', l0, hok, hlen', h0, h0', hlow, hhigh⟩ :=
      updateLRUHit_of_row tag hrow hlen.symm k lk hk hkt hfirst
    rw [hu] at hok
    cases hok
    exact inv_withRow hinv n (by omega)
      (validFront_of_valid_same hpre (hit_valid_same hpre hli hlv hki h0 h0' hlow hhigh))
  · obtain ⟨l, hl⟩ := isFull_ok_inv hf
    obtain ⟨n, k, row, rfl, hk, hrow, hlk⟩ := line_ok_inv hl
    have hlen := hinv.wf.slots row (row_mem hrow)
    have hpre := hinv.front row (row_mem hrow)
    have hpos : 1 ≤ row.length := by have := lt_of_get hlk; omega
    obtain ⟨row', hok, hlen', h0, hshift⟩ := updateCache_of_row tag hrow hpos hlen.symm
    rw [hu] at hok
    cases hok
    exact inv_withRow hinv n (by omega) (validFront_insert hpre hlen' h0 hshift)

theorem inv_new {E b s : Int} {v : Bool} {c : Cache} (h : Cache.new E b s v = .ok c) :
    c.Inv := by
  unfold Cache.new at h
  by_cases h1 : s < 0 ∨ 32 ≤ s
  · simp [h1] at h
  · by_cases h2 : toInt32 (2 ^ s.toNat) < 0
    · simp [h1, h2] at h
    · by_cases h3 : E < 0
      · simp [h1, h2, h3] at h
      · simp only [h1, h2, h3, if_false, Except.ok.injEq] at h
        subst h
        constructor
        · constructor
          · simp only [List.length_replicate]; omega
          · intro row hmem
            rw [List.eq_of_mem_replicate hmem]
            simp only [List.length_replicate]; omega
        · intro row hmem
          rw [List.eq_of_mem_replicate hmem]
          intro i j l _ hl hv
          have hl' := List.getElem?_mem hl
          rw [List.eq_of_mem_replicate hl'] at hv
          cases hv

theorem inv_of_reachable {sim : Simulate} (h : Reachable sim) : sim.cacheP.Inv := by
  induction h with
  | fresh hnew =>
    rename_i E b s v sim
    unfold Simulate.new at hnew
    cases hc : Cache.new E b s v with
    | error e => simp [hc, bind, Except.bind] at hnew
    | ok c =>
      simp only [hc, bind, Except.bind, pure, Except.pure, Except.ok.injEq] at hnew
      subst hnew
      exact inv_new hc
  | access _ _ _ hload ih => exact inv_loadData ih hload

theorem line_row_nat {c : Cache} {n : Nat} {row : List Line} (hrow : c.lines[n]? = some row)
    (i : Nat) : c.line n i = match row[i]? with
      | none => .error .outOfBounds
      | some l => .ok l := by
  rw [line_cast, hrow]

/-- C5. Frame of hit promotion: in a reachable state where `presentInCache(S, T)`
holds and `k` is the first slot of `S` whose tag is `T`, `updateLRUHit(S, T)`
returns; each line that was at a slot `i < k` is at slot `i + 1` afterwards,
every slot of `S` beyond `k` is unchanged, a slot that was valid (in any set)
is still valid, and every other set is unchanged. -/
theorem updateLRUHit_frame (sim : Simulate) (hr : Reachable sim) (S T : Int) (k : Nat)
    (hp : sim.cacheP.presentInCache S T = .ok true)
    (hk : ∃ l, sim.cacheP.line S k = .ok l ∧ l.tag = T)
    (hfirst : ∀ j : Nat, j < k → ∀ l, sim.cacheP.line S j = .ok l → l.tag ≠ T) :
    ∃ c', sim.cacheP.updateLRUHit S T = .ok c' ∧
      (∀ i : Nat, i < k → c'.line S ((i + 1 : Nat) : Int) = sim.cacheP.line S i) ∧
      (∀ i : Nat, k < i → c'.line S i = sim.cacheP.line S i) ∧
      (∀ (S' i : Int) (l : Line), sim.cacheP.line S' i = .ok l → l.valid = true →
        ∃ l', c'.line S' i = .ok l' ∧ l'.valid = true) ∧
      (∀ S' : Int, S' ≠ S → ∀ i : Int, c'.line S' i = sim.cacheP.line S' i) := by
  have hinv := inv_of_reachable hr
  obtain ⟨lk, hlk, hkt⟩ := hk
  obtain ⟨n, k', row, rfl, hkk, hrow, hrk⟩ := line_ok_inv hlk
  have hkk' : k' = k := by omega
  subst hkk'
  have hlen := hinv.wf.slots row (row_mem hrow)
  have hpre := hinv.front row (row_mem hrow)
  have hfirst' : ∀ j, j < k' → ∀ l, row[j]? = some l → l.tag ≠ T :=
    fun j hj l hl => hfirst j hj l (line_of_row hrow hl)
  obtain ⟨b, hb, hiff⟩ := presentInCache_of_row T hrow hlen.symm
  rw [hp] at hb
  cases hb
  obtain ⟨i, li, hli, hlt, hlv⟩ := hiff.mp rfl
  have hki : k' ≤ i := by
    by_contra hcon
    exact hfirst' i (by omega) li hli hlt
  obtain ⟨row', l0, hok, hlen', h0, h0', hlow, hhigh⟩ :=
    updateLRUHit_of_row T hrow hlen.symm k' lk hrk hkt hfirst'
  have hrow' := withRow_lines_same row' hrow
  have hvalid := hit_valid_same hpre hli hlv hki h0 h0' hlow hhigh
  refine ⟨_, hok, ?_, ?_, ?_, ?_⟩
  · intro j hj
    rw [line_row_nat hrow' (j + 1), line_row_nat hrow j, hlow j hj]
  · intro j hj
    rw [line_row_nat hrow' j, line_row_nat hrow j, hhigh j hj]
  · intro S' j l hl hv
    by_cases hS : S' = (n : Int)
    · subst hS
      obtain ⟨n2, j2, row2, hn2, rfl, hrow2, hl2⟩ := line_ok_inv hl
      have hn : n2 = n := by omega
      subst hn
      rw [hrow] at hrow2
      cases hrow2
      have hv2 := hvalid j2
      rw [hl2] at hv2
      cases hr' : row'[j2]? with
      | none => rw [hr'] at hv2; cases hv2
      | some l' =>
        rw [hr'] at hv2
        simp only [Option.map_some', Option.some.injEq] at hv2
        refine ⟨l', ?_, by rw [hv2]; exact hv⟩
        rw [line_row_nat hrow' j2, hr']
    · rw [line_withRow_other _ n row' hS j]
      exact ⟨l, hl, hv⟩
  · intro S' hS j
    exact line_withRow_other _ n row' hS j

/-- Witness for C5: after the accesses `7`, `9` to the only set of a two-way
cache the row is `[9, 7]`; the hit on `7` finds it first at slot 1. -/
theorem updateLRUHit_frame_witness :
    ∃ c', rowNineSeven.cacheP.updateLRUHit 0 7 = .ok c' ∧
      (∀ i : Nat, i < 1 → c'.line 0 ((i + 1 : Nat) : Int) = rowNineSeven.cacheP.line 0 i) ∧
      (∀ i : Nat, 1 < i → c'.line 0 i = rowNineSeven.cacheP.line 0 i) ∧
      (∀ (S' i : Int) (l : Line), rowNineSeven.cacheP.line S' i = .ok l → l.valid = true →
        ∃ l', c'.line S' i = .ok l' ∧ l'.valid = true) ∧
      (∀ S' : Int, S' ≠ 0 → ∀ i : Int, c'.line S' i = rowNineSeven.cacheP.line S' i) :=
  updateLRUHit_frame rowNineSeven
    (@Reachable.access rowSeven rowNineSeven 9 0
      (@Reachable.access twoWayFresh rowSeven 7 0
        (@Reachable.fresh 2 0 0 false twoWayFresh (by decide))
        (by decide) (by decide) (by decide))
      (by decide) (by decide) (by decide))
    0 7 1 (by decide) ⟨⟨7, true⟩, by decide, rfl⟩
    (by
      intro j hj l hl
      have hj0 : j = 0 := by omega
      subst hj0
      have h9 : rowNineSeven.cacheP.line 0 ((0 : Nat) : Int) = .ok ⟨9, true⟩ := by decide
      rw [h9] at hl
      cases hl
      decide)

/-- C10. `getBits(source, low, high)` returns a value exactly when
`0 ≤ low ≤ high ≤ 63`; the value is then `(source / 2^low) mod 2^(high-low+1)`,
the bits `low..high` of the source; outside that range the call ends on its
assertion. The example of the source comment: `getBits(395, 0, 5) = 11`. -/
theorem getBits_spec (source : Nat) (low high : Int) :
    ((∃ v, getBits source low high = .ok v) ↔ (0 ≤ low ∧ low ≤ high ∧ high ≤ 63)) ∧
    ((0 ≤ low ∧ low ≤ high ∧ high ≤ 63) →
      getBits source low high =
        .ok ((source / 2 ^ low.toNat) % 2 ^ (high - low + 1).toNat)) ∧
    (¬ (0 ≤ low ∧ low ≤ high ∧ high ≤ 63) → getBits source low high = .error .assertion) ∧
    getBits 395 0 5 = .ok 11 := by
  have hbad : ¬ (0 ≤ low ∧ low ≤ high ∧ high ≤ 63) →
      getBits source low high = .error .assertion := by
    intro h
    have hr : ¬ rangeOk low high := by
      rintro ⟨h0, _, h1, h2⟩
      exact h ⟨h0, h1, h2⟩
    simp only [getBits, hr, if_false]
  refine ⟨⟨?_, fun h => ⟨_, getBits_ok source low high h⟩⟩, getBits_ok source low high,
    hbad, by decide⟩
  rintro ⟨v, hv⟩
  by_contra hcon
  rw [hbad hcon] at hv
  cases hv

/-- C1 at the tags `A = 2^32`, `B = 1`, `C = 0` on set 1 of a new two-way cache
with two sets. The accesses `A, B, A` are miss, miss, hit, but the hit leaves
tag `0` in slot 0: the tag `A` cut to the 32 bits of `placeHolder`. The fourth
access, with `C = 0`, is therefore a hit and not a miss: the counters end at
hits 2, misses 2, evictions 0, and `B` is still present. -/
theorem lru_sequence_wide_tag :
    (Simulate.new 2 4 1 false >>= fun s => s.loadAll [(4294967296, 1)])
      = .ok ⟨⟨[[Line.new, Line.new], [⟨4294967296, true⟩, Line.new]], 2, 2, 4, 1, false⟩,
          0, 1, 0, false⟩ ∧
    (Simulate.new 2 4 1 false >>= fun s => s.loadAll [(4294967296, 1), (1, 1)])
      = .ok ⟨⟨[[Line.new, Line.new], [⟨1, true⟩, ⟨4294967296, true⟩]], 2, 2, 4, 1, false⟩,
          0, 2, 0, false⟩ ∧
    (Simulate.new 2 4 1 false >>= fun s =>
        s.loadAll [(4294967296, 1), (1, 1), (4294967296, 1)])
      = .ok ⟨⟨[[Line.new, Line.new], [⟨0, true⟩, ⟨1, true⟩]], 2, 2, 4, 1, false⟩,
          1, 2, 0, false⟩ ∧
    (Simulate.new 2 4 1 false >>= fun s =>
        s.loadAll [(4294967296, 1), (1, 1), (4294967296, 1), (0, 1)])
      = .ok ⟨⟨[[Line.new, Line.new], [⟨0, true⟩, ⟨1, true⟩]], 2, 2, 4, 1, false⟩,
          2, 2, 0, false⟩ ∧
    (Cache.mk [[Line.new, Line.new], [⟨0, true⟩, ⟨1, true⟩]] 2 2 4 1 false).presentInCache 1 1
      = .ok true := by
  decide

/-- C3 at the reachable row `[1, 2^32]` (accesses `2^32`, `1` to set 1 of a new
two-way cache with two sets): tag `T = 2^32` is present, and after
`updateLRUHit(1, T)` slot 0 is a valid line with tag `0`, so `T` is no longer
present. -/
theorem hit_promotion_wide_tag :
    Reachable ⟨⟨[[Line.new, Line.new], [⟨1, true⟩, ⟨4294967296, true⟩]], 2, 2, 4, 1, false⟩,
      0, 2, 0, false⟩ ∧
    (Cache.mk [[Line.new, Line.new], [⟨1, true⟩, ⟨4294967296, true⟩]] 2 2 4 1
        false).presentInCache 1 4294967296 = .ok true ∧
    (Cache.mk [[Line.new, Line.new], [⟨1, true⟩, ⟨4294967296, true⟩]] 2 2 4 1
        false).updateLRUHit 1 4294967296
      = .ok (Cache.mk [[Line.new, Line.new], [⟨0, true⟩, ⟨1, true⟩]] 2 2 4 1 false) ∧
    (Cache.mk [[Line.new, Line.new], [⟨0, true⟩, ⟨1, true⟩]] 2 2 4 1 false).line 1 0
      = .ok ⟨0, true⟩ ∧
    (Cache.mk [[Line.new, Line.new], [⟨0, true⟩, ⟨1, true⟩]] 2 2 4 1
        false).presentInCache 1 4294967296 = .ok false := by
  refine ⟨?_, by decide, by decide, by decide, by decide⟩
  exact @Reachable.access
    ⟨⟨[[Line.new, Line.new], [⟨4294967296, true⟩, Line.new]], 2, 2, 4, 1, false⟩,
      0, 1, 0, false⟩ _ 1 1
    (@Reachable.access
      ⟨⟨[[Line.new, Line.new], [Line.new, Line.new]], 2, 2, 4, 1, false⟩, 0, 0, 0, false⟩
      _ 4294967296 1
      (@Reachable.fresh 2 4 1 false _ (by decide))
      (by decide) (by decide) (by decide))
    (by decide) (by decide) (by decide)

/-- C6 at the accesses `2^32, 1, 2^32, 2^32` to set 1 of a new two-way cache
with two sets: the set sees two distinct tags, not more than the
associativity, and the evictions counter ends at 1. -/
theorem eviction_with_two_tags :
    ([(4294967296, 1), (1, 1), (4294967296, 1), (4294967296, 1)].map
        (fun a : Int × Int => a.1)).dedup.length = 2 ∧
    (Simulate.new 2 4 1 false >>= fun s =>
        s.loadAll [(4294967296, 1), (1, 1), (4294967296, 1), (4294967296, 1)])
      = .ok ⟨⟨[[Line.new, Line.new], [⟨4294967296, true⟩, ⟨0, true⟩]], 2, 2, 4, 1, false⟩,
          1, 3, 1, false⟩ := by
  decide

/-- C8. `getSet` never hands a value to its caller: the bits it computes stay
in a local variable. With one set-index bit and four offset bits, address
`0x10` has set bits `1`, `getSet` yields no value, and `run` cannot go past
the first data record. -/
theorem getSet_returns_nothing :
    (∀ (c : Cache) (a : Nat) (v : Int), c.getSet a ≠ .ok v) ∧
    getBits 16 4 4 = .ok 1 ∧
    (Cache.new 1 4 1 false >>= fun c => c.getSet 16) = .error .noReturnValue ∧
    (Simulate.new 1 4 1 false >>= fun s => s.run [" L 10,1"]) = .error .noReturnValue := by
  refine ⟨?_, by decide, by decide, by decide⟩
  intro c a v h
  unfold Cache.getSet at h
  cases hb : getBits a c.setRange.1 c.setRange.2 with
  | error e => simp [hb, bind, Except.bind] at h
  | ok x => simp [hb, bind, Except.bind] at h

theorem toInt32_small {x : Int} (h0 : 0 ≤ x) (h1 : x < 2 ^ 31) : toInt32 x = x := by
  unfold toInt32
  rw [Int.emod_eq_of_lt (by omega) (by omega)]
  omega

theorem new_fields {E b s : Int} {v : Bool} {c : Cache} (h : Cache.new E b s v = .ok c) :
    c.associativity = E ∧ c.blockOffsetBits = b ∧ c.setIndexBits = s ∧ 0 ≤ E ∧
      0 ≤ s ∧ s ≤ 30 ∧ c.numSets = 2 ^ s.toNat := by
  unfold Cache.new at h
  by_cases h1 : s < 0 ∨ 32 ≤ s
  · simp [h1] at h
  · by_cases h2 : toInt32 (2 ^ s.toNat) < 0
    · simp [h1, h2] at h
    · by_cases h3 : E < 0
      · simp [h1, h2, h3] at h
      · simp only [h1, h2, h3, if_false, Except.ok.injEq] at h
        subst h
        have hs30 : s ≤ 30 := by
          by_contra hcon
          have hs31 : s = 31 := by omega
          subst hs31
          exact h2 (by decide)
        refine ⟨rfl, rfl, rfl, by omega, by omega, hs30, ?_⟩
        show toInt32 (2 ^ s.toNat) = 2 ^ s.toNat
        have hpow : (2 : Int) ^ s.toNat ≤ 2 ^ 30 :=
          pow_le_pow_right₀ (by norm_num) (by omega)
        exact toInt32_small (by positivity) (by omega)

/-- C9, amended. On a cache constructed with `setIndexBits ≥ 1`,
`blockOffsetBits ≥ 0` and `blockOffsetBits + setIndexBits ≤ 63`, for every
address both `getTag` and `getSet` pass `getBits` a range that satisfies its
assertion; `getTag` returns, and the bits `getSet` computes are
`(a / 2^blockOffsetBits) mod 2^setIndexBits`, a number in `[0, numSets - 1]`. -/
theorem decode_ranges_ok (E b s : Int) (v : Bool) (c : Cache)
    (hc : Cache.new E b s v = .ok c) (hb : 0 ≤ b) (hs : 1 ≤ s) (hbs : b + s ≤ 63) (a : Nat) :
    rangeOk c.tagRange.1 c.tagRange.2 ∧ rangeOk c.setRange.1 c.setRange.2 ∧
      (∃ t, c.getTag a = .ok t) ∧
      (∃ x, getBits a c.setRange.1 c.setRange.2 = .ok x ∧
        x = (a / 2 ^ b.toNat) % 2 ^ s.toNat ∧ 0 ≤ (x : Int) ∧ (x : Int) ≤ c.numSets - 1) ∧
      c.getSet a ≠ .error .assertion := by
  obtain ⟨_, hcb, hcs, _, _, _, hnum⟩ := new_fields hc
  have htag : 0 ≤ c.tagRange.1 ∧ c.tagRange.1 ≤ c.tagRange.2 ∧ c.tagRange.2 ≤ 63 := by
    simp only [Cache.tagRange, hcb, hcs]; omega
  have hset : 0 ≤ c.setRange.1 ∧ c.setRange.1 ≤ c.setRange.2 ∧ c.setRange.2 ≤ 63 := by
    simp only [Cache.setRange, hcb, hcs]; omega
  have hgs := getBits_ok a _ _ hset
  have hexp : (c.setRange.2 - c.setRange.1 + 1).toNat = s.toNat := by
    simp only [Cache.setRange, hcb, hcs]; omega
  have hlow : c.setRange.1.toNat = b.toNat := by simp only [Cache.setRange, hcb]
  rw [hexp, hlow] at hgs
  refine ⟨⟨htag.1, by omega, htag.2.1, htag.2.2⟩, ⟨hset.1, by omega, hset.2.1, hset.2.2⟩,
    ?_, ⟨(a / 2 ^ b.toNat) % 2 ^ s.toNat, hgs, rfl, Int.ofNat_nonneg _, ?_⟩, ?_⟩
  · unfold Cache.getTag
    rw [getBits_ok a _ _ htag]
    exact ⟨_, rfl⟩
  · have hlt : (a / 2 ^ b.toNat) % 2 ^ s.toNat < 2 ^ s.toNat :=
      Nat.mod_lt _ (by positivity)
    have hcast : ((2 ^ s.toNat : Nat) : Int) = (2 : Int) ^ s.toNat := by norm_cast
    rw [hnum, ← hcast]
    have : (((a / 2 ^ b.toNat) % 2 ^ s.toNat : Nat) : Int) < ((2 ^ s.toNat : Nat) : Int) :=
      Int.ofNat_lt.mpr hlt
    omega
  · unfold Cache.getSet
    rw [hgs]
    simp [bind, Except.bind]

/-- Witness for C9, amended: one set-index bit, four offset bits, address `0x18`. -/
theorem decode_ranges_ok_witness :
    rangeOk (Cache.mk [[Line.new], [Line.new]] 2 1 4 1 false).tagRange.1
        (Cache.mk [[Line.new], [Line.new]] 2 1 4 1 false).tagRange.2 ∧
      rangeOk (Cache.mk [[Line.new], [Line.new]] 2 1 4 1 false).setRange.1
        (Cache.mk [[Line.new], [Line.new]] 2 1 4 1 false).setRange.2 ∧
      (∃ t, (Cache.mk [[Line.new], [Line.new]] 2 1 4 1 false).getTag 24 = .ok t) ∧
      (∃ x, getBits 24 (Cache.mk [[Line.new], [Line.new]] 2 1 4 1 false).setRange.1
          (Cache.mk [[Line.new], [Line.new]] 2 1 4 1 false).setRange.2 = .ok x ∧
        x = (24 / 2 ^ (4 : Int).toNat) % 2 ^ (1 : Int).toNat ∧ 0 ≤ (x : Int) ∧
        (x : Int) ≤ (Cache.mk [[Line.new], [Line.new]] 2 1 4 1 false).numSets - 1) ∧
      (Cache.mk [[Line.new], [Line.new]] 2 1 4 1 false).getSet 24 ≠ .error .assertion :=
  decode_ranges_ok 1 4 1 false (Cache.mk [[Line.new], [Line.new]] 2 1 4 1 false)
    (by decide) (by decide) (by decide) (by decide) 24

/-- C9 fails without a set-index bit and without a tag bit: with
`setIndexBits = 0`, `blockOffsetBits = 4` the range of `getSet` is `4..3` and
`getSet` ends on the assertion; with `setIndexBits = 4`, `blockOffsetBits = 60`
the range of `getTag` is `64..63` and `getTag` ends on the assertion. -/
theorem decode_range_rejected :
    (Cache.new 1 4 0 false = .ok (Cache.mk [[Line.new]] 1 1 4 0 false) ∧
      (Cache.mk [[Line.new]] 1 1 4 0 false).setRange = (4, 3) ∧
      ¬ rangeOk 4 3 ∧
      (Cache.mk [[Line.new]] 1 1 4 0 false).getSet 16 = .error .assertion) ∧
    (Cache.new 1 60 4 false = .ok (Cache.mk (List.replicate 16 [Line.new]) 16 1 60 4 false) ∧
      (Cache.mk (List.replicate 16 [Line.new]) 16 1 60 4 false).tagRange = (64, 63) ∧
      ¬ rangeOk 64 63 ∧
      (Cache.mk (List.replicate 16 [Line.new]) 16 1 60 4 false).getTag 16
        = .error .assertion) := by
  decide

/-- C2 fails: with `setIndexBits = 0`, `blockOffsetBits = 4`, `associativity = 1`
the run over the three records does not end with hits 0, misses 3,
evictions 2. -/
theorem single_set_trace_refuted :
    ¬ ∃ s0 s, Simulate.new 1 4 0 false = .ok s0 ∧
      s0.run [" L 10,1", " L 18,1", " L 10,1"] = .ok s ∧
      s.hits = 0 ∧ s.misses = 3 ∧ s.evictions = 2 := by
  rintro ⟨s0, s, h0, hrun, _⟩
  have hnew : Simulate.new 1 4 0 false
      = .ok ⟨⟨[[Line.new]], 1, 1, 4, 0, false⟩, 0, 0, 0, false⟩ := by decide
  rw [hnew] at h0
  cases h0
  have hfault : (Simulate.mk ⟨[[Line.new]], 1, 1, 4, 0, false⟩ 0 0 0 false).run
      [" L 10,1", " L 18,1", " L 10,1"] = .error .assertion := by decide
  rw [hfault] at hrun
  cases hrun

/-- C2, amended. With `setIndexBits = 0`, `blockOffsetBits = 4`,
`associativity = 1`, the address fields `10` and `18` of the three records are
the numbers `0x10` and `0x18`, `getTag` gives the tag `1` for both (they differ
in bit 3, inside the block offset), and three accesses with tag `1` to set `0`
of the new cache end with hits 2, misses 1, evictions 0. -/
theorem single_set_trace_same_tag :
    (scanHex (" L 10,1".toList.drop 3) >>= stoul16) = .ok 0x10 ∧
    (scanHex (" L 18,1".toList.drop 3) >>= stoul16) = .ok 0x18 ∧
    (Cache.new 1 4 0 false >>= fun c => c.getTag 0x10) = .ok 1 ∧
    (Cache.new 1 4 0 false >>= fun c => c.getTag 0x18) = .ok 1 ∧
    (Simulate.new 1 4 0 false >>= fun s => s.loadAll [(1, 0), (1, 0), (1, 0)])
      = .ok ⟨⟨[[⟨1, true⟩]], 1, 1, 4, 0, false⟩, 2, 1, 0, false⟩ := by
  decide

/-- C11, amended. For every configuration with `associativity ≥ 1` and
`0 ≤ setIndexBits ≤ 30` the constructor returns a cache with
`numSets = 2^setIndexBits` rows; every row has exactly `associativity` slots,
and every slot is invalid with tag 0. -/
theorem new_geometry (E b s : Int) (v : Bool) (hE : 1 ≤ E) (hs0 : 0 ≤ s) (hs : s ≤ 30) :
    ∃ c, Cache.new E b s v = .ok c ∧ c.numSets = 2 ^ s.toNat ∧
      c.associativity = E ∧ c.blockOffsetBits = b ∧ c.setIndexBits = s ∧
      (c.lines.length : Int) = 2 ^ s.toNat ∧
      (∀ row ∈ c.lines, (row.length : Int) = E ∧ ∀ l ∈ row, l = ⟨0, false⟩) ∧
      (∀ S i : Int, 0 ≤ S → S < c.numSets → 0 ≤ i → i < E → c.line S i = .ok ⟨0, false⟩) := by
  have hpow : (2 : Int) ^ s.toNat ≤ 2 ^ 30 := pow_le_pow_right₀ (by norm_num) (by omega)
  have hpos : (0 : Int) < 2 ^ s.toNat := by positivity
  have hnum : toInt32 (2 ^ s.toNat) = 2 ^ s.toNat := toInt32_small (by omega) (by omega)
  have h1 : ¬ (s < 0 ∨ 32 ≤ s) := by omega
  have h2 : ¬ (toInt32 (2 ^ s.toNat) < 0) := by rw [hnum]; omega
  have h3 : ¬ (E < 0) := by omega
  have hnew : Cache.new E b s v = .ok
      { lines := List.replicate (toInt32 (2 ^ s.toNat)).toNat
          (List.replicate E.toNat Line.new)
        numSets := toInt32 (2 ^ s.toNat)
        associativity := E
        blockOffsetBits := b
        setIndexBits := s
        verbose := v } := by
    unfold Cache.new
    simp only [h1, h2, h3, if_false]
  refine ⟨_, hnew, hnum, rfl, rfl, rfl, ?_, ?_, ?_⟩
  · simp only [List.length_replicate, hnum]
    omega
  · intro row hmem
    rw [List.eq_of_mem_replicate hmem]
    refine ⟨by simp only [List.length_replicate]; omega, ?_⟩
    intro l hl
    rw [List.eq_of_mem_replicate hl]
    rfl
  · intro S i hS0 hS1 hi0 hi1
    obtain ⟨n, rfl⟩ := Int.eq_ofNat_of_zero_le hS0
    obtain ⟨k, rfl⟩ := Int.eq_ofNat_of_zero_le hi0
    have hn : n < (toInt32 (2 ^ s.toNat)).toNat := by
      have : (n : Int) < toInt32 (2 ^ s.toNat) := hS1
      omega
    have hk : k < E.toNat := by omega
    rw [line_cast]
    simp only [List.getElem?_replicate, hn, hk, if_true]
    rfl

/-- Witness for C11, amended: two sets of two lines. -/
theorem new_geometry_witness :
    ∃ c, Cache.new 2 4 1 false = .ok c ∧ c.numSets = 2 ^ (1 : Int).toNat ∧
      c.associativity = 2 ∧ c.blockOffsetBits = 4 ∧ c.setIndexBits = 1 ∧
      (c.lines.length : Int) = 2 ^ (1 : Int).toNat ∧
      (∀ row ∈ c.lines, (row.length : Int) = 2 ∧ ∀ l ∈ row, l = ⟨0, false⟩) ∧
      (∀ S i : Int, 0 ≤ S → S < c.numSets → 0 ≤ i → i < 2 → c.line S i = .ok ⟨0, false⟩) :=
  new_geometry 2 4 1 false (by decide) (by decide) (by decide)

/-- C11 fails at `setIndexBits = 31` (with `associativity = 1`,
`blockOffsetBits = 0`): the 32-bit `1 << 31` is `-2^31`, not `2^31`, and the
constructor returns no cache. -/
theorem new_rejects_31_bits :
    toInt32 (2 ^ 31) = -2147483648 ∧
    Cache.new 1 0 31 false = .error .badArrayLength ∧
    ¬ ∃ c, Cache.new 1 0 31 false = .ok c ∧ c.numSets = 2 ^ 31 := by
  refine ⟨by decide, by decide, ?_⟩
  rintro ⟨c, hc, _⟩
  have h : Cache.new 1 0 31 false = .error .badArrayLength := by decide
  rw [h] at hc
  cases hc

/-- C15. A trace line whose first character is `I` leaves the simulator as it
is, whatever follows the `I`; a run over a trace and the run over the same
trace without its `I` lines give the same result. -/
theorem instruction_lines_skipped :
    (∀ (s : Simulate) (rest : List Char), s.runLine ('I' :: rest) = .ok s) ∧
    (∀ (s : Simulate) (trace : List String),
      s.run (trace.filter (fun line => decide (line.toList.head? ≠ some 'I'))) = s.run trace) := by
  have hline : ∀ (s : Simulate) (rest : List Char), s.runLine ('I' :: rest) = .ok s := by
    intro s rest
    unfold Simulate.runLine strAt
    simp [bind, Except.bind]
  refine ⟨hline, ?_⟩
  intro s trace
  induction trace generalizing s with
  | nil => rfl
  | cons line rest ih =>
    by_cases h : line.toList.head? = some 'I'
    · have hform : ∃ tl, line.toList = 'I' :: tl := by
        cases hl : line.toList with
        | nil => rw [hl] at h; cases h
        | cons c tl =>
          rw [hl] at h
          simp only [List.head?_cons, Option.some.injEq] at h
          exact ⟨tl, by rw [h]⟩
      obtain ⟨tl, htl⟩ := hform
      have hskip : s.run (line :: rest) = s.run rest := by
        show (s.runLine line.toList >>= fun s1 => s1.run rest) = s.run rest
        rw [htl, hline]
        rfl
      rw [hskip, List.filter_cons_of_neg (by simpa using h)]
      exact ih s
    · rw [List.filter_cons_of_pos (by simpa using h)]
      show (s.runLine line.toList >>= fun s1 => s1.run _) =
        (s.runLine line.toList >>= fun s1 => s1.run rest)
      cases hr : s.runLine line.toList with
      | error e => rfl
      | ok s1 =>
        show s1.run _ = s1.run rest
        exact ih s1

theorem split_address (a p q : Nat) :
    a / 2 ^ (q + p) * 2 ^ (q + p) + (a / 2 ^ p) % 2 ^ q * 2 ^ p + a % 2 ^ p = a := by
  have h1 : a / 2 ^ (q + p) = a / 2 ^ p / 2 ^ q := by
    rw [Nat.div_div_eq_div_mul, ← pow_add, Nat.add_comm]
  have h2 := Nat.div_add_mod (a / 2 ^ p) (2 ^ q)
  have h3 := Nat.div_add_mod a (2 ^ p)
  rw [h1, pow_add]
  calc a / 2 ^ p / 2 ^ q * (2 ^ q * 2 ^ p) + a / 2 ^ p % 2 ^ q * 2 ^ p + a % 2 ^ p
      = 2 ^ p * (2 ^ q * (a / 2 ^ p / 2 ^ q) + a / 2 ^ p % 2 ^ q) + a % 2 ^ p := by ring
    _ = a := by rw [h2, h3]

theorem high_bits_all (a p : Nat) (ha : a < 2 ^ 64) (hp : p ≤ 63) :
    (a / 2 ^ p) % 2 ^ (63 - p + 1) = a / 2 ^ p := by
  apply Nat.mod_eq_of_lt
  rw [Nat.div_lt_iff_lt_mul (by positivity), ← pow_add]
  have : 63 - p + 1 + p = 64 := by omega
  rw [this]
  exact ha

theorem toInt64_small (x : Nat) (h : x < 2 ^ 63) : toInt64 (x : Int) = (x : Int) := by
  unfold toInt64
  have h63 : (x : Int) < 2 ^ 63 := by exact_mod_cast h
  rw [Int.emod_eq_of_lt (by omega) (by omega)]
  omega

/-- C19. Address decomposition keeps every bit above the block offset: with
`blockOffsetBits ≥ 0`, `setIndexBits ≥ 1`, `blockOffsetBits + setIndexBits ≤ 63`
and a 64-bit address `a`, the two `getBits` calls of `getTag` and `getSet`
succeed with `tag = a / 2^(s+b)` and `set = (a / 2^b) mod 2^s`, `getTag`
returns that tag, `tag * 2^(s+b) + set * 2^b + a mod 2^b = a`, and two addresses
have the same tag bits and set bits exactly when `a / 2^b = a' / 2^b`. -/
theorem decode_lossless (c : Cache) (a : Nat) (hb : 0 ≤ c.blockOffsetBits)
    (hs : 1 ≤ c.setIndexBits) (hbs : c.blockOffsetBits + c.setIndexBits ≤ 63)
    (ha : a < 2 ^ 64) :
    ∃ tag set : Nat,
      getBits a (c.setIndexBits + c.blockOffsetBits) 63 = .ok tag ∧
      getBits a c.blockOffsetBits (c.setIndexBits + c.blockOffsetBits - 1) = .ok set ∧
      c.getTag a = .ok (tag : Int) ∧
      tag * 2 ^ (c.setIndexBits + c.blockOffsetBits).toNat + set * 2 ^ c.blockOffsetBits.toNat
        + a % 2 ^ c.blockOffsetBits.toNat = a ∧
      ∀ a' : Nat, a' < 2 ^ 64 →
        ((getBits a' (c.setIndexBits + c.blockOffsetBits) 63 = .ok tag ∧
          getBits a' c.blockOffsetBits (c.setIndexBits + c.blockOffsetBits - 1) = .ok set) ↔
          a' / 2 ^ c.blockOffsetBits.toNat = a / 2 ^ c.blockOffsetBits.toNat) := by
  obtain ⟨p, hp⟩ := Int.eq_ofNat_of_zero_le hb
  obtain ⟨q, hq⟩ := Int.eq_ofNat_of_zero_le (show 0 ≤ c.setIndexBits by omega)
  have hqp : q + p ≤ 63 := by omega
  have hq1 : 1 ≤ q := by omega
  have e1 : (c.setIndexBits + c.blockOffsetBits).toNat = q + p := by omega
  have e2 : ((63 : Int) - (c.setIndexBits + c.blockOffsetBits) + 1).toNat = 63 - (q + p) + 1 := by
    omega
  have e3 : c.blockOffsetBits.toNat = p := by omega
  have e4 : (c.setIndexBits + c.blockOffsetBits - 1 - c.blockOffsetBits + 1).toNat = q := by
    omega
  have htag : ∀ x : Nat, x < 2 ^ 64 →
      getBits x (c.setIndexBits + c.blockOffsetBits) 63 = .ok (x / 2 ^ (q + p)) := by
    intro x hx
    rw [getBits_ok x _ _ ⟨by omega, by omega, le_refl _⟩, e1, e2, high_bits_all x (q + p) hx hqp]
  have hset : ∀ x : Nat,
      getBits x c.blockOffsetBits (c.setIndexBits + c.blockOffsetBits - 1)
        = .ok ((x / 2 ^ p) % 2 ^ q) := by
    intro x
    rw [getBits_ok x _ _ ⟨by omega, by omega, by omega⟩, e3, e4]
  have hdiv : ∀ x : Nat, x / 2 ^ p = x / 2 ^ (q + p) * 2 ^ q + (x / 2 ^ p) % 2 ^ q := by
    intro x
    have h1 : x / 2 ^ (q + p) = x / 2 ^ p / 2 ^ q := by
      rw [Nat.div_div_eq_div_mul, ← pow_add, Nat.add_comm]
    rw [h1, Nat.mul_comm]
    exact (Nat.div_add_mod _ _).symm
  refine ⟨a / 2 ^ (q + p), (a / 2 ^ p) % 2 ^ q, htag a ha, hset a, ?_, ?_, ?_⟩
  · unfold Cache.getTag Cache.tagRange
    rw [htag a ha]
    have hlt : a / 2 ^ (q + p) < 2 ^ 63 := by
      rw [Nat.div_lt_iff_lt_mul (by positivity)]
      calc a < 2 ^ 64 := ha
        _ = 2 ^ 63 * 2 ^ 1 := by norm_num
        _ ≤ 2 ^ 63 * 2 ^ (q + p) :=
          Nat.mul_le_mul_left _ (Nat.pow_le_pow_right (by norm_num) (by omega))
    have hconv := toInt64_small _ hlt
    simp only [bind, Except.bind, pure, Except.pure, hconv]
  · rw [e1, e3]
    exact split_address a p q
  · intro a' ha'
    rw [htag a' ha', hset a', e3]
    simp only [Except.ok.injEq]
    constructor
    · rintro ⟨h1, h2⟩
      rw [hdiv a', hdiv a, h1, h2]
    · intro h
      have h1 : a' / 2 ^ (q + p) = a / 2 ^ (q + p) := by
        have e : ∀ x : Nat, x / 2 ^ (q + p) = x / 2 ^ p / 2 ^ q := by
          intro x
          rw [Nat.div_div_eq_div_mul, ← pow_add, Nat.add_comm]
        rw [e a', e a, h]
      exact ⟨h1, by rw [h]⟩

/-- Witness for C19: four offset bits, one set-index bit, address `0x7ff0005c8`. -/
theorem decode_lossless_witness :
    ∃ tag set : Nat,
      getBits 34342962632 ((1 : Int) + 4) 63 = .ok tag ∧
      getBits 34342962632 (4 : Int) ((1 : Int) + 4 - 1) = .ok set ∧
      (Cache.mk [[Line.new], [Line.new]] 2 1 4 1 false).getTag 34342962632 = .ok (tag : Int) ∧
      tag * 2 ^ ((1 : Int) + 4).toNat + set * 2 ^ (4 : Int).toNat
        + 34342962632 % 2 ^ (4 : Int).toNat = 34342962632 ∧
      ∀ a' : Nat, a' < 2 ^ 64 →
        ((getBits a' ((1 : Int) + 4) 63 = .ok tag ∧
          getBits a' (4 : Int) ((1 : Int) + 4 - 1) = .ok set) ↔
          a' / 2 ^ (4 : Int).toNat = 34342962632 / 2 ^ (4 : Int).toNat) :=
  decode_lossless (Cache.mk [[Line.new], [Line.new]] 2 1 4 1 false) 34342962632
    (by decide) (by decide) (by decide) (by norm_num)

/-- C12 at the accesses `2^32 + 1`, `1`, `2^32 + 1` to set 1 of a new two-way
cache with two sets: the third access is a hit that stores the promoted tag
cut to 32 bits, which is `1`; the reachable state has two valid lines with
tag `1` in set 1. -/
theorem duplicate_tag_reachable :
    Reachable ⟨⟨[[Line.new, Line.new], [⟨1, true⟩, ⟨1, true⟩]], 2, 2, 4, 1, false⟩,
      1, 2, 0, false⟩ ∧
    (Cache.mk [[Line.new, Line.new], [⟨1, true⟩, ⟨1, true⟩]] 2 2 4 1 false).line 1 0
      = .ok ⟨1, true⟩ ∧
    (Cache.mk [[Line.new, Line.new], [⟨1, true⟩, ⟨1, true⟩]] 2 2 4 1 false).line 1 1
      = .ok ⟨1, true⟩ := by
  refine ⟨?_, by decide, by decide⟩
  exact @Reachable.access
    ⟨⟨[[Line.new, Line.new], [⟨1, true⟩, ⟨4294967297, true⟩]], 2, 2, 4, 1, false⟩,
      0, 2, 0, false⟩ _ 4294967297 1
    (@Reachable.access
      ⟨⟨[[Line.new, Line.new], [⟨4294967297, true⟩, Line.new]], 2, 2, 4, 1, false⟩,
        0, 1, 0, false⟩ _ 1 1
      (@Reachable.access twoSetsFresh _ 4294967297 1
        (@Reachable.fresh 2 4 1 false twoSetsFresh (by decide))
        (by decide) (by decide) (by decide))
      (by decide) (by decide) (by decide))
    (by decide) (by decide) (by decide)

/-- C17 at the reachable row `[1, 2^32]` of set 1 (accesses `2^32`, `1` on a new
two-way cache with two sets) and a `Modify` with tag `2^32`: the first call is
a hit that leaves tag `0` in slot 0, so the second call is a miss on a full
set. The `Modify` adds one hit, one miss and one eviction. -/
theorem modify_second_access_misses :
    Reachable ⟨⟨[[Line.new, Line.new], [⟨1, true⟩, ⟨4294967296, true⟩]], 2, 2, 4, 1, false⟩,
      0, 2, 0, false⟩ ∧
    (Simulate.mk ⟨[[Line.new, Line.new], [⟨1, true⟩, ⟨4294967296, true⟩]], 2, 2, 4, 1, false⟩
        0 2 0 false).loadData 4294967296 1
      = .ok ⟨⟨[[Line.new, Line.new], [⟨0, true⟩, ⟨1, true⟩]], 2, 2, 4, 1, false⟩,
          1, 2, 0, false⟩ ∧
    (Simulate.mk ⟨[[Line.new, Line.new], [⟨0, true⟩, ⟨1, true⟩]], 2, 2, 4, 1, false⟩
        1 2 0 false).loadData 4294967296 1
      = .ok ⟨⟨[[Line.new, Line.new], [⟨4294967296, true⟩, ⟨0, true⟩]], 2, 2, 4, 1, false⟩,
          1, 3, 1, false⟩ ∧
    (Simulate.mk ⟨[[Line.new, Line.new], [⟨1, true⟩, ⟨4294967296, true⟩]], 2, 2, 4, 1, false⟩
        0 2 0 false).modify 4294967296 1
      = .ok ⟨⟨[[Line.new, Line.new], [⟨4294967296, true⟩, ⟨0, true⟩]], 2, 2, 4, 1, false⟩,
          1, 3, 1, false⟩ := by
  refine ⟨?_, by decide, by decide, by decide⟩
  exact @Reachable.access
    ⟨⟨[[Line.new, Line.new], [⟨4294967296, true⟩, Line.new]], 2, 2, 4, 1, false⟩,
      0, 1, 0, false⟩ _ 1 1
    (@Reachable.access twoSetsFresh _ 4294967296 1
      (@Reachable.fresh 2 4 1 false twoSetsFresh (by decide))
      (by decide) (by decide) (by decide))
    (by decide) (by decide) (by decide)

/-- What a returning `loadData` does to the storage of a cache satisfying the
invariant: one row is replaced by a row of the same length in which every slot
that was valid is still valid. -/
theorem loadData_row {s s' : Simulate} {tag set : Int} (hinv : s.cacheP.Inv)
    (h : s.loadData tag set = .ok s') :
    ∃ (n : Nat) (row row' : List Line), set = (n : Int) ∧ s.cacheP.lines[n]? = some row ∧
      s'.cacheP = s.cacheP.withRow n row' ∧ row'.length = row.length ∧ 1 ≤ row.length ∧
      ∀ (j : Nat) (l : Line), row[j]? = some l → l.valid = true →
        ∃ l', row'[j]? = some l' ∧ l'.valid = true := by
  rcases loadData_cases h with ⟨hp, c', hu, rfl⟩ | ⟨hp, full, c', hf, hu, rfl⟩
  · obtain ⟨l, hl⟩ := updateLRUHit_ok_inv hu
    obtain ⟨n, k, row, rfl, _, hrow, hl0⟩ := line_ok_inv hl
    have hlen := hinv.wf.slots row (row_mem hrow)
    have hpre := hinv.front row (row_mem hrow)
    obtain ⟨b, hb, hiff⟩ := presentInCache_of_row tag hrow hlen.symm
    rw [hp] at hb
    cases hb
    obtain ⟨i, li, hli, hlt, hlv⟩ := hiff.mp rfl
    obtain ⟨k, lk, hki, hk, hkt, hfirst⟩ := first_tag row tag i li hli hlt
    obtain ⟨row', l0, hok, hlen', h0, h0', hlow, hhigh⟩ :=
      updateLRUHit_of_row tag hrow hlen.symm k lk hk hkt hfirst
    rw [hu] at hok
    cases hok
    refine ⟨n, row, row', rfl, hrow, rfl, hlen', by have := lt_of_get hli; omega, ?_⟩
    intro j l hj hv
    have hsame := hit_valid_same hpre hli hlv hki h0 h0' hlow hhigh j
    rw [hj] at hsame
    cases hr : row'[j]? with
    | none => rw [hr] at hsame; cases hsame
    | some l' =>
      rw [hr] at hsame
      simp only [Option.map_some', Option.some.injEq] at hsame
      exact ⟨l', rfl, by rw [hsame]; exact hv⟩
  · obtain ⟨l, hl⟩ := isFull_ok_inv hf
    obtain ⟨n, k, row, rfl, hk, hrow, hlk⟩ := line_ok_inv hl
    have hlen := hinv.wf.slots row (row_mem hrow)
    have hpre := hinv.front row (row_mem hrow)
    have hpos : 1 ≤ row.length := by have := lt_of_get hlk; omega
    obtain ⟨row', hok, hlen', h0, hshift⟩ := updateCache_of_row tag hrow hpos hlen.symm
    rw [hu] at hok
    cases hok
    refine ⟨n, row, row', rfl, hrow, rfl, hlen', hpos, ?_⟩
    intro j l hj hv
    rcases Nat.eq_zero_or_pos j with hj0 | hj0
    · subst hj0; exact ⟨_, h0, rfl⟩
    · obtain ⟨j', rfl⟩ : ∃ j', j = j' + 1 := ⟨j - 1, by omega⟩
      have hjlt := lt_of_get hj
      obtain ⟨l', hl', hv'⟩ := hpre (j' + 1) j' l (by omega) hj hv
      exact ⟨l', by rw [hshift j' hjlt]; exact hl', hv'⟩

/-- On a cache satisfying the invariant, with at least one line per set,
`loadData` returns for every set in range. -/
theorem loadData_total {s : Simulate} (tag : Int) {set : Int} (hinv : s.cacheP.Inv)
    (hE : 1 ≤ s.cacheP.associativity) (h0 : 0 ≤ set) (h1 : set < s.cacheP.numSets) :
    ∃ s', s.loadData tag set = .ok s' := by
  obtain ⟨n, row, rfl, hrow, hlen⟩ := row_of_wf hinv.wf h0 h1
  obtain ⟨b, hb, hiff⟩ := presentInCache_of_row tag hrow hlen.symm
  cases b with
  | true =>
    obtain ⟨i, li, hli, hlt, _⟩ := hiff.mp rfl
    obtain ⟨k, lk, _, hk, hkt, hfirst⟩ := first_tag row tag i li hli hlt
    obtain ⟨row', _, hok, _⟩ := updateLRUHit_of_row tag hrow hlen.symm k lk hk hkt hfirst
    exact ⟨_, loadData_hit hb hok⟩
  | false =>
    obtain ⟨llast, hlast⟩ := get_of_lt (show row.length - 1 < row.length by omega)
    obtain ⟨row', hok, _⟩ := updateCache_of_row tag hrow (by omega) hlen.symm
    exact ⟨_, loadData_miss hb (isFull_of_row hrow hlen.symm hlast) hok⟩

/-- Every returning `loadData` is either a hit (hits + 1, nothing else) or a
miss (misses + 1, evictions + 0 or + 1). -/
theorem counters_step {s s' : Simulate} {tag set : Int} (h : s.loadData tag set = .ok s') :
    (s'.hits = s.hits + 1 ∧ s'.misses = s.misses ∧ s'.evictions = s.evictions) ∨
    (s'.hits = s.hits ∧ s'.misses = s.misses + 1 ∧
      (s'.evictions = s.evictions ∨ s'.evictions = s.evictions + 1)) := by
  rcases loadData_cases h with ⟨_, c', _, rfl⟩ | ⟨_, full, c', _, _, rfl⟩
  · left; exact ⟨rfl, rfl, rfl⟩
  · right
    refine ⟨rfl, rfl, ?_⟩
    cases full
    · left; rfl
    · right; rfl

/-- C13. In every state reached from a new simulator by accesses: the valid
lines of each set are a prefix of its slots; `isFull(S)` returns, and returns
true exactly when every slot of `S` is valid; and an access turns no valid
slot invalid. -/
theorem sets_fill_front (sim : Simulate) (hr : Reachable sim) :
    (∀ (S : Int) (i j : Nat) (l : Line), j ≤ i → sim.cacheP.line S i = .ok l →
      l.valid = true → ∃ l', sim.cacheP.line S j = .ok l' ∧ l'.valid = true) ∧
    (∀ S : Int, 1 ≤ sim.cacheP.associativity → 0 ≤ S → S < sim.cacheP.numSets →
      ∃ f, sim.cacheP.isFull S = .ok f ∧
        (f = true ↔ ∀ i : Int, 0 ≤ i → i < sim.cacheP.associativity →
          ∃ l, sim.cacheP.line S i = .ok l ∧ l.valid = true)) ∧
    (∀ (tag set : Int) (sim' : Simulate), sim.loadData tag set = .ok sim' →
      ∀ (S i : Int) (l : Line), sim.cacheP.line S i = .ok l → l.valid = true →
        ∃ l', sim'.cacheP.line S i = .ok l' ∧ l'.valid = true) := by
  have hinv := inv_of_reachable hr
  refine ⟨?_, ?_, ?_⟩
  · intro S i j l hji hl hv
    obtain ⟨n, k, row, rfl, hk, hrow, hlk⟩ := line_ok_inv hl
    have hki : k = i := by omega
    subst hki
    obtain ⟨l', hl', hv'⟩ := hinv.front row (row_mem hrow) k j l hji hlk hv
    exact ⟨l', line_of_row hrow hl', hv'⟩
  · intro S hE h0 h1
    obtain ⟨n, row, rfl, hrow, hlen⟩ := row_of_wf hinv.wf h0 h1
    obtain ⟨llast, hlast⟩ := get_of_lt (show row.length - 1 < row.length by omega)
    refine ⟨llast.valid, isFull_of_row hrow hlen.symm hlast, ?_⟩
    constructor
    · intro hv i hi0 hi1
      obtain ⟨k, rfl⟩ := Int.eq_ofNat_of_zero_le hi0
      obtain ⟨l', hl', hv'⟩ :=
        hinv.front row (row_mem hrow) (row.length - 1) k llast (by omega) hlast hv
      exact ⟨l', line_of_row hrow hl', hv'⟩
    · intro hall
      obtain ⟨l, hl, hv⟩ := hall ((row.length - 1 : Nat) : Int) (by omega) (by omega)
      rw [line_row_nat hrow, hlast] at hl
      cases hl
      exact hv
  · intro tag set sim' hload S i l hl hv
    obtain ⟨n, row, row', rfl, hrow, hc', _, _, hkeep⟩ := loadData_row hinv hload
    by_cases hS : S = (n : Int)
    · subst hS
      obtain ⟨n2, j, row2, hn2, rfl, hrow2, hl2⟩ := line_ok_inv hl
      have hn : n2 = n := by omega
      subst hn
      rw [hrow] at hrow2
      cases hrow2
      obtain ⟨l', hl', hv'⟩ := hkeep j l hl2 hv
      refine ⟨l', ?_, hv'⟩
      rw [hc', line_row_nat (withRow_lines_same row' hrow) j, hl']
    · rw [hc', line_withRow_other _ n row' hS i]
      exact ⟨l, hl, hv⟩

/-- Witness for C13: the state after one access with tag `7`. -/
theorem sets_fill_front_witness :
    (∀ (S : Int) (i j : Nat) (l : Line), j ≤ i → rowSeven.cacheP.line S i = .ok l →
      l.valid = true → ∃ l', rowSeven.cacheP.line S j = .ok l' ∧ l'.valid = true) ∧
    (∀ S : Int, 1 ≤ rowSeven.cacheP.associativity → 0 ≤ S → S < rowSeven.cacheP.numSets →
      ∃ f, rowSeven.cacheP.isFull S = .ok f ∧
        (f = true ↔ ∀ i : Int, 0 ≤ i → i < rowSeven.cacheP.associativity →
          ∃ l, rowSeven.cacheP.line S i = .ok l ∧ l.valid = true)) ∧
    (∀ (tag set : Int) (sim' : Simulate), rowSeven.loadData tag set = .ok sim' →
      ∀ (S i : Int) (l : Line), rowSeven.cacheP.line S i = .ok l → l.valid = true →
        ∃ l', sim'.cacheP.line S i = .ok l' ∧ l'.valid = true) :=
  sets_fill_front rowSeven
    (@Reachable.access twoWayFresh rowSeven 7 0
      (@Reachable.fresh 2 0 0 false twoWayFresh (by decide))
      (by decide) (by decide) (by decide))

/-- The body of the loop of `run` ends in the switch. -/
theorem runLine_switch (s : Simulate) (line : List Char) :
    s.runLine line = (do
      let first ← strAt line 0
      if first = 'I' then .ok s
      else
        let memAccess ← strAt line 1
        let hex ← scanHex (line.drop 3)
        if 15 < hex.length then .error .outOfBounds
        else
          let source ← stoul16 hex
          let tag ← s.cacheP.getTag source
          let set ← s.cacheP.getSet source
          s.switchOn memAccess tag set) := rfl

theorem run_cons_error {s : Simulate} {line : String} {rest : List String} {e : Fault}
    (h : s.runLine line.toList = .error e) : s.run (line :: rest) = .error e := by
  show (s.runLine line.toList >>= fun s1 => s1.run rest) = .error e
  rw [h]
  rfl

theorem loadAll_count {s s' : Simulate} {accs : List (Int × Int)}
    (h : s.loadAll accs = .ok s') :
    s'.hits + s'.misses = s.hits + s.misses + accs.length := by
  induction accs generalizing s with
  | nil =>
    simp only [Simulate.loadAll, Except.ok.injEq] at h
    subst h
    simp
  | cons a rest ih =>
    obtain ⟨tag, set⟩ := a
    unfold Simulate.loadAll at h
    cases h1 : s.loadData tag set with
    | error e => simp [h1, bind, Except.bind] at h
    | ok s1 =>
      simp only [h1, bind, Except.bind] at h
      have := ih h
      have hstep := counters_step h1
      simp only [List.length_cons, Nat.cast_add, Nat.cast_one]
      rcases hstep with ⟨a1, a2, _⟩ | ⟨a1, a2, _⟩ <;> omega

/-- C20. Each `loadData` call that returns adds exactly 1 to exactly one of
hits and misses, and 0 or 1 to evictions, 1 only on a miss; the switch adds
`subAccesses` (1 for `L` and `S`, 2 for `M`, 0 otherwise) to `hits + misses`.
But `run` never gets to the switch: `getSet` hands over no set number, so the
run over the well-formed one-record trace ` L 10,1` yields no counters. -/
theorem sub_access_counting :
    (∀ (s s' : Simulate) (tag set : Int), s.loadData tag set = .ok s' →
      (s'.hits = s.hits + 1 ∧ s'.misses = s.misses ∧ s'.evictions = s.evictions) ∨
      (s'.hits = s.hits ∧ s'.misses = s.misses + 1 ∧
        (s'.evictions = s.evictions ∨ s'.evictions = s.evictions + 1))) ∧
    (∀ (s s' : Simulate) (memAccess : Char) (tag set : Int),
      s.switchOn memAccess tag set = .ok s' →
        s'.hits + s'.misses = s.hits + s.misses + subAccesses memAccess) ∧
    (∀ (s s' : Simulate) (accs : List (Int × Int)), s.loadAll accs = .ok s' →
      s'.hits + s'.misses = s.hits + s.misses + accs.length) ∧
    (Simulate.new 1 4 1 false >>= fun s => s.run [" L 10,1"]) = .error .noReturnValue := by
  refine ⟨fun s s' tag set h => counters_step h, ?_, fun s s' accs h => loadAll_count h,
    by decide⟩
  intro s s' m tag set h
  unfold Simulate.switchOn at h
  unfold subAccesses
  have hmod : ∀ s2, s.modify tag set = .ok s2 → s2.hits + s2.misses = s.hits + s.misses + 2 := by
    intro s2 h2
    unfold Simulate.modify at h2
    cases h1 : s.loadData tag set with
    | error e => simp [h1, bind, Except.bind] at h2
    | ok s1 =>
      simp only [h1, bind, Except.bind] at h2
      rcases counters_step h1 with ⟨a1, a2, _⟩ | ⟨a1, a2, _⟩ <;>
        rcases counters_step h2 with ⟨b1, b2, _⟩ | ⟨b1, b2, _⟩ <;> omega
  by_cases hL : m = 'L'
  · simp only [hL, if_true] at h ⊢
    rcases counters_step h with ⟨a1, a2, _⟩ | ⟨a1, a2, _⟩ <;> omega
  · by_cases hS : m = 'S'
    · simp only [hL, hS, if_true, if_false] at h ⊢
      rcases counters_step h with ⟨a1, a2, _⟩ | ⟨a1, a2, _⟩ <;> omega
    · by_cases hM : m = 'M'
      · simp only [hL, hS, hM, if_true, if_false] at h ⊢
        exact hmod s' h
      · simp only [hL, hS, hM, if_false, Except.ok.injEq] at h ⊢
        subst h
        omega

theorem toInt32_small_signed {x : Int} (h : isInt32 x) : toInt32 x = x := by
  obtain ⟨h0, h1⟩ := h
  unfold toInt32
  rw [Int.emod_eq_of_lt (by omega) (by omega)]
  omega

theorem validTags_rowOf (E : Nat) (l : List Int) : validTags (rowOf E l) = l := by
  unfold validTags rowOf
  rw [List.filter_append, List.filter_replicate_of_neg (by simp [Line.new]), List.append_nil,
    List.filter_map, List.map_map]
  have hf : List.filter ((fun l : Line => l.valid) ∘ fun t => (⟨t, true⟩ : Line)) l = l := by
    apply List.filter_eq_self.mpr
    intro a _
    rfl
  rw [hf]
  exact List.map_id _

theorem rowOf_length {E : Nat} {l : List Int} (h : l.length ≤ E) : (rowOf E l).length = E := by
  unfold rowOf
  simp only [List.length_append, List.length_map, List.length_replicate]
  omega

theorem rowOf_get_front {E : Nat} {l : List Int} {i : Nat} (h : i < l.length) :
    (rowOf E l)[i]? = (l[i]?).map (fun t => (⟨t, true⟩ : Line)) := by
  unfold rowOf
  rw [List.getElem?_append_left (by simpa using h), List.getElem?_map]

theorem rowOf_get_back {E : Nat} {l : List Int} {i : Nat} {x : Line} (h : l.length ≤ i)
    (hx : (rowOf E l)[i]? = some x) : x = Line.new := by
  unfold rowOf at hx
  rw [List.getElem?_append_right (by simpa using h)] at hx
  exact List.eq_of_mem_replicate (List.getElem?_mem hx)

theorem rowOf_valid_iff {E : Nat} {l : List Int} {i : Nat} {x : Line}
    (hx : (rowOf E l)[i]? = some x) : x.valid = true ↔ i < l.length := by
  constructor
  · intro hv
    by_contra hcon
    have := rowOf_get_back (by omega) hx
    rw [this] at hv
    cases hv
  · intro hi
    rw [rowOf_get_front hi] at hx
    cases hl : l[i]? with
    | none => rw [hl] at hx; cases hx
    | some t =>
      rw [hl] at hx
      simp only [Option.map_some', Option.some.injEq] at hx
      rw [← hx]

theorem present_rowOf {E : Nat} {l : List Int} (T : Int) :
    (∃ (i : Nat) (x : Line), (rowOf E l)[i]? = some x ∧ x.tag = T ∧ x.valid = true) ↔ T ∈ l := by
  constructor
  · rintro ⟨i, x, hx, ht, hv⟩
    have hi := (rowOf_valid_iff hx).mp hv
    rw [rowOf_get_front hi] at hx
    cases hl : l[i]? with
    | none => rw [hl] at hx; cases hx
    | some t =>
      rw [hl] at hx
      simp only [Option.map_some', Option.some.injEq] at hx
      rw [← hx] at ht
      simp only at ht
      rw [← ht]
      exact List.getElem?_mem hl
  · intro hmem
    obtain ⟨i, hi, hget⟩ := List.getElem_of_mem hmem
    refine ⟨i, ⟨T, true⟩, ?_, rfl, rfl⟩
    rw [rowOf_get_front hi, List.getElem?_eq_getElem hi, hget]
    rfl

/-- Erasing the first occurrence of `T`, found at index `k`. -/
theorem erase_first {l : List Int} {T : Int} {k : Nat} (hk : l[k]? = some T)
    (hfirst : ∀ j, j < k → l[j]? ≠ some T) : l.erase T = l.eraseIdx k := by
  induction l generalizing k with
  | nil => simp at hk
  | cons a t ih =>
    cases k with
    | zero =>
      simp only [List.getElem?_cons_zero, Option.some.injEq] at hk
      subst hk
      simp
    | succ k =>
      have ha : a ≠ T := by
        intro h
        exact hfirst 0 (by omega) (by simp [h])
      rw [List.erase_cons, List.eraseIdx_cons_succ]
      have hbeq : (a == T) = false := by simpa using ha
      simp only [hbeq, Bool.false_eq_true, if_false]
      congr 1
      apply ih
      · simpa using hk
      · intro j hj
        have := hfirst (j + 1) (by omega)
        simpa using this

theorem hit_row_eq {row row' : List Line} {k : Nat} {x0 : Line}
    (h0' : row'[0]? = some x0)
    (hlow : ∀ i, i < k → row'[i + 1]? = row[i]?)
    (hhigh : ∀ i, k < i → row'[i]? = row[i]?) :
    row' = x0 :: row.eraseIdx k := by
  apply List.ext_getElem?
  intro j
  cases j with
  | zero => simpa using h0'
  | succ j =>
    rw [List.getElem?_cons_succ]
    by_cases hj : j < k
    · rw [hlow j hj, List.getElem?_eraseIdx_of_lt _ _ _ hj]
    · rw [hhigh (j + 1) (by omega), List.getElem?_eraseIdx_of_ge _ _ _ (by omega)]

theorem miss_row_eq {row row' : List Line} {x0 : Line}
    (hlen : row'.length = row.length) (h0 : row'[0]? = some x0)
    (hshift : ∀ i, i + 1 < row.length → row'[i + 1]? = row[i]?) :
    row' = x0 :: row.dropLast := by
  apply List.ext_getElem?
  intro j
  cases j with
  | zero => simpa using h0
  | succ j =>
    rw [List.getElem?_cons_succ, List.getElem?_dropLast]
    by_cases hj : j + 1 < row.length
    · rw [hshift j hj, if_pos (by omega)]
    · rw [if_neg (by omega)]
      exact List.getElem?_eq_none (by omega)

theorem map_eraseIdx_line (l : List Int) (k : Nat) :
    (l.map (fun t => (⟨t, true⟩ : Line))).eraseIdx k
      = (l.eraseIdx k).map (fun t => (⟨t, true⟩ : Line)) := by
  induction l generalizing k with
  | nil => rfl
  | cons a t ih =>
    cases k with
    | zero => rfl
    | succ k => simp only [List.map_cons, List.eraseIdx_cons_succ, ih]

theorem rowOf_hit {E : Nat} {l : List Int} {T : Int} {k : Nat} (hk : k < l.length) :
    (⟨T, true⟩ : Line) :: (rowOf E l).eraseIdx k = rowOf E (T :: l.eraseIdx k) := by
  unfold rowOf
  rw [List.eraseIdx_append_of_lt_length (by simpa using hk), map_eraseIdx_line]
  have hlen : (T :: l.eraseIdx k).length = l.length := by
    rw [List.length_cons, List.length_eraseIdx]
    simp only [hk, if_true]
    omega
  rw [hlen]
  rfl

theorem rowOf_miss_room {E : Nat} {l : List Int} {T : Int} (h : l.length < E) :
    (⟨T, true⟩ : Line) :: (rowOf E l).dropLast = rowOf E (T :: l) := by
  unfold rowOf
  obtain ⟨m, hm⟩ : ∃ m, E - l.length = m + 1 := ⟨E - l.length - 1, by omega⟩
  have hm' : E - (T :: l).length = m := by simp only [List.length_cons]; omega
  rw [hm, hm', List.replicate_succ', ← List.append_assoc, List.dropLast_concat]
  rfl

theorem rowOf_miss_full {E : Nat} {l : List Int} {T : Int} (hE : 1 ≤ E) (h : l.length = E) :
    (⟨T, true⟩ : Line) :: (rowOf E l).dropLast = rowOf E (T :: l.dropLast) := by
  unfold rowOf
  have h1 : E - l.length = 0 := by omega
  have h2 : E - (T :: l.dropLast).length = 0 := by
    simp only [List.length_cons, List.length_dropLast]; omega
  rw [h1, h2]
  simp only [List.replicate_zero, List.append_nil, List.map_cons, List.map_dropLast]

theorem refines_update {sim : Simulate} {r : RefCache} {E : Nat} (h : Refines sim r E)
    (n : Nat) {l' : List Int} (hl' : l'.length ≤ E) (hs ms es rh rm re : Int)
    (e1 : hs = rh) (e2 : ms = rm) (e3 : es = re) :
    Refines ⟨sim.cacheP.withRow n (rowOf E l'), hs, ms, es, sim.verbose⟩
      ⟨r.sets.set n l', rh, rm, re⟩ E := by
  constructor
  · show sim.cacheP.lines.set n (rowOf E l') = (r.sets.set n l').map (rowOf E)
    rw [h.rows, List.map_set]
  · exact h.assoc
  · show (((r.sets.set n l').length : Nat) : Int) = sim.cacheP.numSets
    rw [List.length_set]
    exact h.sets
  · intro l hmem
    rcases List.mem_or_eq_of_mem_set hmem with hm | hm
    · exact h.short l hm
    · rw [hm]; exact hl'
  · exact e1
  · exact e2
  · exact e3

/-- One access keeps the correspondence with the reference model, for a tag
that fits `int32_t` and a set in range. -/
theorem refines_step {sim : Simulate} {r : RefCache} {E : Nat} (h : Refines sim r E)
    (hE : 1 ≤ E) {tag set : Int} (ht : isInt32 tag) (h0 : 0 ≤ set)
    (h1 : set < sim.cacheP.numSets) :
    ∃ sim', sim.loadData tag set = .ok sim' ∧ Refines sim' (r.access E tag set) E := by
  obtain ⟨n, rfl⟩ := Int.eq_ofNat_of_zero_le h0
  have hn : n < r.sets.length := by have := h.sets; omega
  obtain ⟨l, hl⟩ : ∃ l, r.sets[n]? = some l := ⟨_, List.getElem?_eq_getElem hn⟩
  have hlE : l.length ≤ E := h.short l (List.getElem?_mem hl)
  have hrow : sim.cacheP.lines[n]? = some (rowOf E l) := by
    rw [h.rows, List.getElem?_map, hl]
    rfl
  have hlen : sim.cacheP.associativity = ((rowOf E l).length : Int) := by
    rw [rowOf_length hlE]; exact h.assoc
  have hgetD : r.sets.getD n [] = l := by
    simp only [List.getD_eq_getElem?_getD, hl, Option.getD_some]
  obtain ⟨b, hb, hiff⟩ := presentInCache_of_row tag hrow hlen
  by_cases hmem : tag ∈ l
  · have hbt : b = true := hiff.mpr ((present_rowOf tag).mpr hmem)
    subst hbt
    obtain ⟨i, x, hx, hxt, hxv⟩ := (present_rowOf tag).mpr hmem
    have hil : i < l.length := (rowOf_valid_iff hx).mp hxv
    obtain ⟨k, lk, hki, hk, hkt, hfirst⟩ := first_tag (rowOf E l) tag i x hx hxt
    have hkl : k < l.length := by omega
    obtain ⟨row', l0, hok, hlen', hr0, h0', hlow, hhigh⟩ :=
      updateLRUHit_of_row tag hrow hlen k lk hk hkt hfirst
    have hv0 : l0.valid = true := (rowOf_valid_iff hr0).mpr (by omega)
    have ht0 : (if k = 0 then tag else toInt32 tag) = tag := by
      split
      · rfl
      · exact toInt32_small_signed ht
    rw [ht0, hv0] at h0'
    have hrow' := hit_row_eq h0' hlow hhigh
    have hlk : l[k]? = some tag := by
      rw [rowOf_get_front hkl] at hk
      cases hlk : l[k]? with
      | none => rw [hlk] at hk; cases hk
      | some t =>
        rw [hlk] at hk
        simp only [Option.map_some', Option.some.injEq] at hk
        rw [← hk] at hkt
        simp only at hkt
        rw [hkt]
    have hlfirst : ∀ j, j < k → l[j]? ≠ some tag := by
      intro j hj hcon
      have hrj : (rowOf E l)[j]? = some ⟨tag, true⟩ := by
        rw [rowOf_get_front (by omega), hcon]; rfl
      exact hfirst j hj _ hrj rfl
    rw [rowOf_hit hkl, ← erase_first hlk hlfirst] at hrow'
    refine ⟨_, loadData_hit hb hok, ?_⟩
    have hacc : r.access E tag n
        = ⟨r.sets.set n (tag :: l.erase tag), r.hits + 1, r.misses, r.evictions⟩ := by
      unfold RefCache.access
      simp only [Int.toNat_ofNat, hgetD, hmem, if_true]
    rw [hacc, hrow']
    have hlen2 : (tag :: l.erase tag).length ≤ E := by
      rw [List.length_cons, List.length_erase_of_mem hmem]
      have : 0 < l.length := List.length_pos_of_mem hmem
      omega
    exact refines_update h n hlen2 _ _ _ _ _ _ (by rw [h.hits]) h.misses h.evictions
  · have hbf : b = false := by
      cases b
      · rfl
      · exact absurd ((present_rowOf tag).mp (hiff.mp rfl)) hmem
    subst hbf
    have hrl : (rowOf E l).length = E := rowOf_length hlE
    obtain ⟨llast, hlast⟩ := get_of_lt (show (rowOf E l).length - 1 < (rowOf E l).length by omega)
    have hfull := isFull_of_row hrow hlen hlast
    obtain ⟨row', hok, hlen', hh0, hshift⟩ := updateCache_of_row tag hrow (by omega) hlen
    have hrow' := miss_row_eq hlen' hh0 hshift
    have hload := loadData_miss hb hfull hok
    refine ⟨_, hload, ?_⟩
    by_cases hfl : l.length = E
    · have hv : llast.valid = true := (rowOf_valid_iff hlast).mpr (by omega)
      have hacc : r.access E tag n
          = ⟨r.sets.set n (tag :: l.dropLast), r.hits, r.misses + 1, r.evictions + 1⟩ := by
        unfold RefCache.access
        have hlt : E < l.length + 1 := by omega
        simp only [Int.toNat_ofNat, hgetD, hmem, hlt, if_true, if_false]
      rw [hacc, hrow', rowOf_miss_full hE hfl]
      simp only [hv, if_true]
      have hlen2 : (tag :: l.dropLast).length ≤ E := by
        simp only [List.length_cons, List.length_dropLast]; omega
      exact refines_update h n hlen2 _ _ _ _ _ _ h.hits (by rw [h.misses]) (by rw [h.evictions])
    · have hv : llast.valid = false := by
        cases hvv : llast.valid
        · rfl
        · have := (rowOf_valid_iff hlast).mp hvv
          omega
      have hacc : r.access E tag n
          = ⟨r.sets.set n (tag :: l), r.hits, r.misses + 1, r.evictions⟩ := by
        unfold RefCache.access
        have hlt : ¬ (E < l.length + 1) := by omega
        simp only [Int.toNat_ofNat, hgetD, hmem, hlt, if_false]
      rw [hacc, hrow', rowOf_miss_room (by omega)]
      simp only [hv, Bool.false_eq_true, if_false]
      have hlen2 : (tag :: l).length ≤ E := by
        simp only [List.length_cons]; omega
      exact refines_update h n hlen2 _ _ _ _ _ _ h.hits (by rw [h.misses]) h.evictions

theorem access_sets_length (E : Nat) (r : RefCache) (tag set : Int) :
    (r.access E tag set).sets.length = r.sets.length := by
  unfold RefCache.access
  simp only []
  split
  · simp only [List.length_set]
  · split <;> simp only [List.length_set]

theorem access_nodup {E : Nat} {r : RefCache} (tag set : Int)
    (h : ∀ l ∈ r.sets, l.Nodup) : ∀ l ∈ (r.access E tag set).sets, l.Nodup := by
  have hget : (r.sets.getD set.toNat []).Nodup := by
    rw [List.getD_eq_getElem?_getD]
    cases hl : r.sets[set.toNat]? with
    | none => exact List.nodup_nil
    | some l => exact h l (List.getElem?_mem hl)
  have hall : ∀ (l' : List Int), l'.Nodup → ∀ l ∈ r.sets.set set.toNat l', l.Nodup := by
    intro l' hl' l hmem
    rcases List.mem_or_eq_of_mem_set hmem with hm | hm
    · exact h l hm
    · rw [hm]; exact hl'
  unfold RefCache.access
  simp only []
  split
  · exact hall _ (List.nodup_cons.mpr ⟨hget.not_mem_erase, hget.erase tag⟩)
  · rename_i hmem
    split
    · refine hall _ (List.nodup_cons.mpr ⟨?_, hget.sublist (List.dropLast_sublist _)⟩)
      exact fun hcon => hmem ((List.dropLast_sublist _).mem hcon)
    · exact hall _ (List.nodup_cons.mpr ⟨hmem, hget⟩)

theorem accessAll_nodup {E : Nat} {r : RefCache} (accs : List (Int × Int))
    (h : ∀ l ∈ r.sets, l.Nodup) : ∀ l ∈ (r.accessAll E accs).sets, l.Nodup := by
  induction accs generalizing r with
  | nil => exact h
  | cons a rest ih =>
    obtain ⟨tag, set⟩ := a
    exact ih (access_nodup tag set h)

theorem new_lines {E b s : Int} {v : Bool} {c : Cache} (h : Cache.new E b s v = .ok c) :
    c.lines = List.replicate c.numSets.toNat (List.replicate E.toNat Line.new) ∧
      0 ≤ c.numSets := by
  unfold Cache.new at h
  by_cases h1 : s < 0 ∨ 32 ≤ s
  · simp [h1] at h
  · by_cases h2 : toInt32 (2 ^ s.toNat) < 0
    · simp [h1, h2] at h
    · by_cases h3 : E < 0
      · simp [h1, h2, h3] at h
      · simp only [h1, h2, h3, if_false, Except.ok.injEq] at h
        subst h
        exact ⟨rfl, not_lt.mp h2⟩

theorem refines_new {E b s : Int} {v : Bool} {s0 : Simulate}
    (hnew : Simulate.new E b s v = .ok s0) :
    Refines s0 (RefCache.new s0.cacheP.numSets.toNat) E.toNat := by
  unfold Simulate.new at hnew
  cases hc : Cache.new E b s v with
  | error e => simp [hc, bind, Except.bind] at hnew
  | ok c =>
    simp only [hc, bind, Except.bind, pure, Except.pure, Except.ok.injEq] at hnew
    subst hnew
    obtain ⟨hcE, _, _, hE0, _, _, _⟩ := new_fields hc
    obtain ⟨hlines, hnum0⟩ := new_lines hc
    constructor
    · show c.lines = (List.replicate c.numSets.toNat []).map (rowOf E.toNat)
      rw [List.map_replicate, hlines]
      rfl
    · show c.associativity = ((E.toNat : Nat) : Int)
      omega
    · show (((List.replicate c.numSets.toNat ([] : List Int)).length : Nat) : Int) = c.numSets
      rw [List.length_replicate]
      omega
    · intro l hmem
      rw [List.eq_of_mem_replicate hmem]
      exact Nat.zero_le _
    · rfl
    · rfl
    · rfl

theorem refines_loadAll {sim : Simulate} {r : RefCache} {E : Nat} (h : Refines sim r E)
    (hE : 1 ≤ E) (accs : List (Int × Int))
    (hacc : ∀ a ∈ accs, isInt32 a.1 ∧ 0 ≤ a.2 ∧ a.2 < sim.cacheP.numSets) :
    ∃ sim', sim.loadAll accs = .ok sim' ∧ Refines sim' (r.accessAll E accs) E := by
  induction accs generalizing sim r with
  | nil => exact ⟨sim, rfl, h⟩
  | cons a rest ih =>
    obtain ⟨tag, set⟩ := a
    obtain ⟨ht, h0, h1⟩ := hacc (tag, set) (List.mem_cons_self _ _)
    obtain ⟨sim1, hload, href⟩ := refines_step h hE ht h0 h1
    have hnum : sim1.cacheP.numSets = sim.cacheP.numSets := by
      rw [← href.sets, ← h.sets, access_sets_length]
    obtain ⟨sim', hall, href'⟩ := ih href (by
      intro a ha
      rw [hnum]
      exact hacc a (List.mem_cons_of_mem _ ha))
    refine ⟨sim', ?_, href'⟩
    show (sim.loadData tag set >>= fun s1 => s1.loadAll rest) = .ok sim'
    rw [hload]
    exact hall

theorem incr32_ok {x : Int} (h : x < 2147483647) : incr32 x = .ok (x + 1) := by
  unfold incr32
  rw [if_pos h]

/-- Below the limit of the counters, `loadData32` is `loadData`. -/
theorem loadData32_of_loadData {s s' : Simulate} {tag set : Int}
    (h : s.loadData tag set = .ok s') (hh : s.hits < 2147483647)
    (hm : s.misses < 2147483647) (he : s.evictions < 2147483647) :
    s.loadData32 tag set = .ok s' := by
  rcases loadData_cases h with ⟨hp, c', hu, rfl⟩ | ⟨hp, full, c', hf, hu, rfl⟩
  · unfold Simulate.loadData32
    simp only [hp, hu, incr32_ok hh, bind, Except.bind, if_true, pure, Except.pure]
  · unfold Simulate.loadData32
    cases full <;>
      simp only [hp, hf, hu, incr32_ok hm, incr32_ok he, bind, Except.bind, if_true, if_false,
        pure, Except.pure, Bool.false_eq_true]

theorem incr32_inv {x y : Int} (h : incr32 x = .ok y) : y = x + 1 ∧ x < 2147483647 := by
  unfold incr32 at h
  by_cases hx : x < 2147483647
  · rw [if_pos hx] at h
    cases h
    exact ⟨rfl, hx⟩
  · rw [if_neg hx] at h
    cases h

/-- Every result of `loadData32` is the result of `loadData`. -/
theorem loadData_of_loadData32 {s s' : Simulate} {tag set : Int}
    (h : s.loadData32 tag set = .ok s') : s.loadData tag set = .ok s' := by
  unfold Simulate.loadData32 at h
  cases hp : s.cacheP.presentInCache set tag with
  | error e => simp [hp, bind, Except.bind] at h
  | ok b =>
    cases b with
    | true =>
      cases hi : incr32 s.hits with
      | error e => simp [hp, hi, bind, Except.bind] at h
      | ok y =>
        obtain ⟨rfl, _⟩ := incr32_inv hi
        cases hu : s.cacheP.updateLRUHit set tag with
        | error e => simp [hp, hi, hu, bind, Except.bind] at h
        | ok c' =>
          simp only [hp, hi, hu, bind, Except.bind, if_true, pure, Except.pure,
            Except.ok.injEq] at h
          rw [loadData_hit hp hu, ← h]
    | false =>
      cases hi : incr32 s.misses with
      | error e => simp [hp, hi, bind, Except.bind] at h
      | ok y =>
        obtain ⟨rfl, _⟩ := incr32_inv hi
        cases hf : s.cacheP.isFull set with
        | error e => simp [hp, hi, hf, bind, Except.bind] at h
        | ok full =>
          cases full with
          | false =>
            cases hu : s.cacheP.updateCache set tag with
            | error e => simp [hp, hi, hf, hu, bind, Except.bind, pure, Except.pure] at h
            | ok c' =>
              simp only [hp, hi, hf, hu, bind, Except.bind, if_false, pure, Except.pure,
                Except.ok.injEq, Bool.false_eq_true] at h
              rw [loadData_miss hp hf hu, ← h]
              rfl
          | true =>
            cases he : incr32 s.evictions with
            | error e => simp [hp, hi, hf, he, bind, Except.bind] at h
            | ok z =>
              obtain ⟨rfl, _⟩ := incr32_inv he
              cases hu : s.cacheP.updateCache set tag with
              | error e => simp [hp, hi, hf, he, hu, bind, Except.bind, pure, Except.pure] at h
              | ok c' =>
                simp only [hp, hi, hf, he, hu, bind, Except.bind, if_true, pure, Except.pure,
                  Except.ok.injEq] at h
                rw [loadData_miss hp hf hu, ← h]
                rfl

theorem loadData_geometry {s s' : Simulate} {tag set : Int} (hinv : s.cacheP.Inv)
    (h : s.loadData tag set = .ok s') :
    s'.cacheP.numSets = s.cacheP.numSets ∧ s'.cacheP.associativity = s.cacheP.associativity := by
  obtain ⟨n, row, row', _, _, hc', _⟩ := loadData_row hinv h
  rw [hc']
  exact ⟨rfl, rfl⟩

/-- From a state satisfying the invariant, a sequence of accesses with sets in
range returns under `loadAll32` as long as the number of accesses made stays
within `2^31 - 1`; the counters grow, `hits + misses` counts the accesses. -/
theorem loadAll32_total {s : Simulate} (hinv : s.cacheP.Inv) (hE : 1 ≤ s.cacheP.associativity)
    (accs : List (Int × Int)) (hacc : ∀ a ∈ accs, 0 ≤ a.2 ∧ a.2 < s.cacheP.numSets)
    (h0 : 0 ≤ s.hits) (h1 : 0 ≤ s.misses) (h2 : 0 ≤ s.evictions) (h3 : s.evictions ≤ s.misses)
    (hlen : s.hits + s.misses + accs.length ≤ 2147483647) :
    ∃ s', s.loadAll32 accs = .ok s' ∧ s'.cacheP.Inv ∧
      s'.cacheP.associativity = s.cacheP.associativity ∧ s'.cacheP.numSets = s.cacheP.numSets ∧
      s.hits ≤ s'.hits ∧ s.misses ≤ s'.misses ∧ s.evictions ≤ s'.evictions ∧
      s'.evictions ≤ s'.misses ∧ s'.hits + s'.misses = s.hits + s.misses + accs.length := by
  induction accs generalizing s with
  | nil =>
    exact ⟨s, rfl, hinv, rfl, rfl, le_refl _, le_refl _, le_refl _, h3, by simp⟩
  | cons a rest ih =>
    obtain ⟨tag, set⟩ := a
    obtain ⟨hs0, hs1⟩ := hacc (tag, set) (List.mem_cons_self _ _)
    simp only [List.length_cons, Nat.cast_add, Nat.cast_one] at hlen
    obtain ⟨s1, hload⟩ := loadData_total tag hinv hE hs0 hs1
    have hload32 := loadData32_of_loadData hload (by omega) (by omega) (by omega)
    have hinv1 := inv_loadData hinv hload
    obtain ⟨hnum, hassoc⟩ := loadData_geometry hinv hload
    have hstep := counters_step hload
    obtain ⟨s', hall, hinv', ha', hn', m1, m2, m3, m4, m5⟩ := ih hinv1 (by rw [hassoc]; exact hE)
      (by
        intro a ha
        rw [hnum]
        exact hacc a (List.mem_cons_of_mem _ ha))
      (by rcases hstep with ⟨a1, a2, a3⟩ | ⟨a1, a2, a3 | a3⟩ <;> omega)
      (by rcases hstep with ⟨a1, a2, a3⟩ | ⟨a1, a2, a3 | a3⟩ <;> omega)
      (by rcases hstep with ⟨a1, a2, a3⟩ | ⟨a1, a2, a3 | a3⟩ <;> omega)
      (by rcases hstep with ⟨a1, a2, a3⟩ | ⟨a1, a2, a3 | a3⟩ <;> omega)
      (by rcases hstep with ⟨a1, a2, a3⟩ | ⟨a1, a2, a3 | a3⟩ <;> omega)
    refine ⟨s', ?_, hinv', by rw [ha', hassoc], by rw [hn', hnum], ?_, ?_, ?_, m4, ?_⟩
    · show (s.loadData32 tag set >>= fun x => x.loadAll32 rest) = .ok s'
      rw [hload32]
      exact hall
    · rcases hstep with ⟨a1, a2, a3⟩ | ⟨a1, a2, a3 | a3⟩ <;> omega
    · rcases hstep with ⟨a1, a2, a3⟩ | ⟨a1, a2, a3 | a3⟩ <;> omega
    · rcases hstep with ⟨a1, a2, a3⟩ | ⟨a1, a2, a3 | a3⟩ <;> omega
    · simp only [List.length_cons, Nat.cast_add, Nat.cast_one]
      rcases hstep with ⟨a1, a2, a3⟩ | ⟨a1, a2, a3 | a3⟩ <;> omega

theorem loadAll32_append (s : Simulate) (xs ys : List (Int × Int)) :
    s.loadAll32 (xs ++ ys) = (s.loadAll32 xs >>= fun s1 => s1.loadAll32 ys) := by
  induction xs generalizing s with
  | nil => rfl
  | cons a rest ih =>
    obtain ⟨tag, set⟩ := a
    show (s.loadData32 tag set >>= fun x => x.loadAll32 (rest ++ ys)) =
      ((s.loadData32 tag set >>= fun x => x.loadAll32 rest) >>= fun s1 => s1.loadAll32 ys)
    cases h : s.loadData32 tag set with
    | error e => rfl
    | ok s1 => exact ih s1

/-- C14, amended. From a new simulator with associativity at least 1, along
every sequence of at most `2^31 - 1` accesses with sets in range, every access
returns (with the `int32_t` counters); after every prefix the three counters
are non-negative, `evictions ≤ misses`, `hits + misses` is the number of
accesses made, and no counter is smaller than it was after an earlier
prefix. -/
theorem counters_within_range (E b s : Int) (v : Bool) (s0 : Simulate)
    (accs : List (Int × Int)) (hnew : Simulate.new E b s v = .ok s0) (hE : 1 ≤ E)
    (hacc : ∀ a ∈ accs, 0 ≤ a.2 ∧ a.2 < s0.cacheP.numSets)
    (hlen : accs.length ≤ 2147483647) (k : Nat) :
    ∃ sk, s0.loadAll32 (accs.take k) = .ok sk ∧
      0 ≤ sk.hits ∧ 0 ≤ sk.misses ∧ 0 ≤ sk.evictions ∧ sk.evictions ≤ sk.misses ∧
      sk.hits + sk.misses = (accs.take k).length ∧
      ∀ j, j ≤ k → ∃ sj, s0.loadAll32 (accs.take j) = .ok sj ∧
        sj.hits ≤ sk.hits ∧ sj.misses ≤ sk.misses ∧ sj.evictions ≤ sk.evictions := by
  have hfresh : s0.hits = 0 ∧ s0.misses = 0 ∧ s0.evictions = 0 ∧ s0.cacheP.Inv ∧
      s0.cacheP.associativity = E := by
    unfold Simulate.new at hnew
    cases hc : Cache.new E b s v with
    | error e => simp [hc, bind, Except.bind] at hnew
    | ok c =>
      simp only [hc, bind, Except.bind, pure, Except.pure, Except.ok.injEq] at hnew
      subst hnew
      exact ⟨rfl, rfl, rfl, inv_new hc, (new_fields hc).1⟩
  obtain ⟨f1, f2, f3, hinv, hassoc⟩ := hfresh
  have hlenk : ∀ m : Nat, ((accs.take m).length : Int) ≤ 2147483647 := by
    intro m
    rw [List.length_take]
    omega
  have hmem : ∀ m : Nat, ∀ a ∈ accs.take m, 0 ≤ a.2 ∧ a.2 < s0.cacheP.numSets :=
    fun m a ha => hacc a (List.mem_of_mem_take ha)
  obtain ⟨sk, hk, _, _, _, k1, k2, k3, k4, k5⟩ := loadAll32_total hinv (by omega) (accs.take k)
    (hmem k) (by omega) (by omega) (by omega) (by omega) (by have := hlenk k; omega)
  refine ⟨sk, hk, by omega, by omega, by omega, k4, by omega, ?_⟩
  intro j hj
  obtain ⟨sj, hjr, hinvj, haj, hnj, j1, j2, j3, j4, j5⟩ := loadAll32_total hinv (by omega)
    (accs.take j) (hmem j) (by omega) (by omega) (by omega) (by omega)
    (by have := hlenk j; omega)
  have hsplit : accs.take k = accs.take j ++ (accs.take k).drop j := by
    have h1 := List.take_append_drop j (accs.take k)
    rw [List.take_take, Nat.min_eq_left hj] at h1
    exact h1.symm
  have hlsplit : ((accs.take k).length : Int)
      = (accs.take j).length + ((accs.take k).drop j).length := by
    have := congrArg List.length hsplit
    rw [List.length_append] at this
    omega
  obtain ⟨sk', hk', _, _, _, r1, r2, r3, _, _⟩ := loadAll32_total hinvj (by omega)
    ((accs.take k).drop j)
    (by
      intro a ha
      rw [hnj]
      exact hmem k a (List.mem_of_mem_drop ha))
    (by omega) (by omega) (by omega) j4 (by have := hlenk k; omega)
  have hboth : s0.loadAll32 (accs.take k) = .ok sk' := by
    rw [hsplit, loadAll32_append, hjr]
    exact hk'
  rw [hk] at hboth
  cases hboth
  exact ⟨sj, hjr, r1, r2, r3⟩

/-- Witness for C14, amended: the accesses `5, 7, 5, 9` to set 1 of a new
two-way cache with two sets, after the first three. -/
theorem counters_within_range_witness :
    ∃ sk, twoSetsFresh.loadAll32 ([((5 : Int), (1 : Int)), (7, 1), (5, 1), (9, 1)].take 3)
        = .ok sk ∧
      0 ≤ sk.hits ∧ 0 ≤ sk.misses ∧ 0 ≤ sk.evictions ∧ sk.evictions ≤ sk.misses ∧
      sk.hits + sk.misses = ([((5 : Int), (1 : Int)), (7, 1), (5, 1), (9, 1)].take 3).length ∧
      ∀ j, j ≤ 3 → ∃ sj,
        twoSetsFresh.loadAll32 ([((5 : Int), (1 : Int)), (7, 1), (5, 1), (9, 1)].take j)
          = .ok sj ∧
        sj.hits ≤ sk.hits ∧ sj.misses ≤ sk.misses ∧ sj.evictions ≤ sk.evictions :=
  counters_within_range 2 4 1 false twoSetsFresh [(5, 1), (7, 1), (5, 1), (9, 1)]
    (by decide) (by decide) (by decide) (by decide) 3

theorem hits_run (n : Nat) (h : Int) (hb : h + n ≤ 2147483647) :
    (Simulate.mk sevenInSetOne h 1 0 false).loadAll32 (List.replicate n (7, 1))
      = .ok (Simulate.mk sevenInSetOne (h + n) 1 0 false) := by
  induction n generalizing h with
  | zero => simp [Simulate.loadAll32]
  | succ n ih =>
    have hp : sevenInSetOne.presentInCache 1 7 = .ok true := by decide
    have hu : sevenInSetOne.updateLRUHit 1 7 = .ok sevenInSetOne := by decide
    have hlt : h < 2147483647 := by omega
    have hstep : (Simulate.mk sevenInSetOne h 1 0 false).loadData32 7 1
        = .ok (Simulate.mk sevenInSetOne (h + 1) 1 0 false) := by
      unfold Simulate.loadData32
      simp only [hp, hu, incr32_ok hlt, bind, Except.bind, if_true, pure, Except.pure]
    rw [List.replicate_succ]
    show ((Simulate.mk sevenInSetOne h 1 0 false).loadData32 7 1 >>=
      fun x => x.loadAll32 (List.replicate n (7, 1))) = _
    rw [hstep]
    show (Simulate.mk sevenInSetOne (h + 1) 1 0 false).loadAll32 (List.replicate n (7, 1)) = _
    rw [ih (h + 1) (by push_cast at hb; omega)]
    congr 2
    push_cast
    omega

theorem loadAll32_cons (s : Simulate) (tag set : Int) (rest : List (Int × Int)) :
    s.loadAll32 ((tag, set) :: rest) = (s.loadData32 tag set >>= fun s1 => s1.loadAll32 rest) :=
  rfl

theorem ok_bind {α β : Type} (a : α) (f : α → Except Fault β) : (Except.ok a >>= f) = f a := rfl

theorem hits_to_limit :
    (Simulate.mk sevenInSetOne 0 1 0 false).loadAll32 (List.replicate 2147483647 (7, 1))
      = .ok (Simulate.mk sevenInSetOne 2147483647 1 0 false) := by
  have hrun := hits_run 2147483647 0 (by norm_num)
  have hsum : (0 : Int) + ((2147483647 : Nat) : Int) = 2147483647 := by norm_num
  rw [hsum] at hrun
  exact hrun

theorem run_to_limit :
    twoSetsFresh.loadAll32 (List.replicate 2147483648 (7, 1))
      = .ok ⟨sevenInSetOne, 2147483647, 1, 0, false⟩ := by
  have hfirst : twoSetsFresh.loadData32 7 1 = .ok ⟨sevenInSetOne, 0, 1, 0, false⟩ := by decide
  have e : (2147483648 : Nat) = 2147483647 + 1 := by norm_num
  rw [e, List.replicate_succ, loadAll32_cons, hfirst, ok_bind]
  exact hits_to_limit

/-- C14 fails at `2^31 + 1` accesses with tag `7` to set 1 of a new two-way
cache with two sets: the first is a miss, the next `2^31 - 1` are hits and
leave `hits = 2^31 - 1`, the largest `int32_t`; the `++` of the last access has
no value, so there are no counters after it. -/
theorem counter_overflow_after_hits :
    Simulate.new 2 4 1 false = .ok twoSetsFresh ∧
    twoSetsFresh.loadAll32 (List.replicate 2147483648 (7, 1))
      = .ok ⟨sevenInSetOne, 2147483647, 1, 0, false⟩ ∧
    twoSetsFresh.loadAll32 (List.replicate 2147483649 (7, 1)) = .error .counterOverflow ∧
    ¬ ∃ s, twoSetsFresh.loadAll32 (List.replicate 2147483649 (7, 1)) = .ok s := by
  have hlast : (Simulate.mk sevenInSetOne 2147483647 1 0 false).loadData32 7 1
      = .error .counterOverflow := by decide
  have hend : twoSetsFresh.loadAll32 (List.replicate 2147483649 (7, 1))
      = .error .counterOverflow := by
    have e : (2147483649 : Nat) = 2147483648 + 1 := by norm_num
    rw [e, List.replicate_succ', loadAll32_append, run_to_limit, ok_bind, loadAll32_cons, hlast]
    rfl
  refine ⟨by decide, run_to_limit, hend, ?_⟩
  rintro ⟨s, hs⟩
  rw [hend] at hs
  cases hs

/-- C16 at the one-record trace ` L zz,1` on a new simulator
(`associativity = 1`, `blockOffsetBits = 4`, `setIndexBits = 1`): the address
characters are `zz`, `stoul` throws `std::invalid_argument`, nothing catches it
and the run does not complete, while the run over the trace without that
record completes with all counters 0. The default branch of the switch does
skip a record with another letter, changing nothing; but a record ` X 10,1`
gets no further than `getSet`. -/
theorem bad_record_aborts_run :
    Simulate.new 1 4 1 false
      = .ok ⟨⟨[[Line.new], [Line.new]], 2, 1, 4, 1, false⟩, 0, 0, 0, false⟩ ∧
    scanHex (" L zz,1".toList.drop 3) = .ok ['z', 'z'] ∧
    stoul16 ['z', 'z'] = .error .invalidArgument ∧
    (Simulate.mk ⟨[[Line.new], [Line.new]], 2, 1, 4, 1, false⟩ 0 0 0 false).run [" L zz,1"]
      = .error .invalidArgument ∧
    (¬ ∃ s, (Simulate.mk ⟨[[Line.new], [Line.new]], 2, 1, 4, 1, false⟩ 0 0 0 false).run
      [" L zz,1"] = .ok s) ∧
    (Simulate.mk ⟨[[Line.new], [Line.new]], 2, 1, 4, 1, false⟩ 0 0 0 false).run []
      = .ok ⟨⟨[[Line.new], [Line.new]], 2, 1, 4, 1, false⟩, 0, 0, 0, false⟩ ∧
    (∀ (s : Simulate) (memAccess : Char) (tag set : Int),
      memAccess ≠ 'L' → memAccess ≠ 'S' → memAccess ≠ 'M' →
        s.switchOn memAccess tag set = .ok s) ∧
    (Simulate.mk ⟨[[Line.new], [Line.new]], 2, 1, 4, 1, false⟩ 0 0 0 false).run [" X 10,1"]
      = .error .noReturnValue := by
  have hfault : (Simulate.mk ⟨[[Line.new], [Line.new]], 2, 1, 4, 1, false⟩ 0 0 0 false).run
      [" L zz,1"] = .error .invalidArgument := by decide
  refine ⟨by decide, by decide, by decide, hfault, ?_, by decide, ?_, by decide⟩
  · rintro ⟨s, hs⟩
    rw [hfault] at hs
    cases hs
  · intro s m tag set hL hS hM
    simp only [Simulate.switchOn, hL, hS, hM, if_false]

end CacheSim
